import Mathlib

/-!
Verification of the weight-computation core of the Wynn-sToolKits Blender
add-on: the strided per-vertex weight store, the adjacency builder, the
falloff selector, the Smooth / Harden / Add weight operators and the undo
snapshot manager.  Python dictionaries mapping vertex-group indices to
weights are embedded as insertion-ordered association lists over `ℕ × ℚ`
(exact rational arithmetic stands in for the floats of the source).
-/

/-- First-match lookup in an insertion-ordered association list, mirroring
Python `dict` access. -/
def lookupW : List (ℕ × ℚ) → ℕ → Option ℚ
  | [], _ => none
  | p :: rest, g => if p.1 = g then some p.2 else lookupW rest g

/-- `d.get(g, dv)` of a Python dict. -/
def lookupD (d : List (ℕ × ℚ)) (g : ℕ) (dv : ℚ) : ℚ := (lookupW d g).getD dv

/-- `d[g] = w` on a Python dict: update the existing entry in place or append
a new one, preserving insertion order. -/
def setW : List (ℕ × ℚ) → ℕ → ℚ → List (ℕ × ℚ)
  | [], g, w => [(g, w)]
  | p :: rest, g, w => if p.1 = g then (g, w) :: rest else p :: setW rest g w

/-- `d[g] = d.get(g, 0) + w` accumulation used by the Smooth operator when
averaging neighbour weights. -/
def dictAdd : List (ℕ × ℚ) → ℕ → ℚ → List (ℕ × ℚ)
  | [], g, w => [(g, w)]
  | p :: rest, g, w => if p.1 = g then (p.1, p.2 + w) :: rest else p :: dictAdd rest g w

/-- Removal of a group entry (`group.remove([v])` / `del d[g]`): erases the
first entry carrying key `g`. -/
def eraseKey : List (ℕ × ℚ) → ℕ → List (ℕ × ℚ)
  | [], _ => []
  | p :: rest, g => if p.1 = g then rest else p :: eraseKey rest g

/-- Total weight stored on a vertex: `sum(d.values())`. -/
def totalW (d : List (ℕ × ℚ)) : ℚ := (d.map Prod.snd).sum

/-- Sum of the weights of all groups other than `a` on a vertex:
`sum(w for g, w in d.items() if g != a)`. -/
def othersSum (d : List (ℕ × ℚ)) (a : ℕ) : ℚ :=
  ((d.filter (fun p => p.1 ≠ a)).map Prod.snd).sum

/-- Insert an entry into a weight-descending list directly before the first
entry of smaller-or-equal weight (the stable position). -/
def insertDescW (p : ℕ × ℚ) : List (ℕ × ℚ) → List (ℕ × ℚ)
  | [] => [p]
  | q :: rest => if q.2 ≤ p.2 then p :: q :: rest else q :: insertDescW p rest

/-- Stable sort by weight, largest first: the embedding of Python
`sorted(d.items(), key=lambda x: x[1], reverse=True)`. -/
def sortDescW : List (ℕ × ℚ) → List (ℕ × ℚ)
  | [] => []
  | p :: rest => insertDescW p (sortDescW rest)

/-- `src/Rig/WynnWeightBrush.py`, `get_harden_target`: push a weight toward
`1.0` when it is at least `0.5` and toward `0.0` otherwise, by linear
interpolation with the given factor. -/
def get_harden_target (weight factor : ℚ) : ℚ :=
  let target : ℚ := if 1/2 ≤ weight then 1 else 0
  weight + (target - weight) * factor

/-- Modelled from the spec: the per-vertex Harden application lives in the
native module `WynnWeightLogic.dll` (mode 1 of `apply_vertex_logic_strided`),
which is not part of the source tree; the spec states that on a target vertex
the operator replaces the active group's weight (0 if absent) by the hardened
value, leaving other groups untouched.  The hardened value itself is computed
by the in-source `get_harden_target`. -/
def harden_vertex (dvert : List (ℕ × ℚ)) (active : ℕ) (ff : ℚ) : List (ℕ × ℚ) :=
  setW dvert active (get_harden_target (lookupD dvert active 0) ff)

/-- `src/Rig/WynnWeightBrush.py` lines 302-307 (and the identical loop in
`src/Rig/EditModeWeight.py` lines 235-241): loading one vertex's group-weight
map into the strided store copies entries in iteration order and stops as
soon as the slot counter reaches the stride of 8. -/
def load_slots_aux : ℕ → List (ℕ × ℚ) → List (ℕ × ℚ)
  | _, [] => []
  | k, g :: rest => if 8 ≤ k then [] else g :: load_slots_aux (k + 1) rest

/-- The entries of a vertex's group-weight map that survive loading into the
strided weight store. -/
def load_vertex_slots (groups : List (ℕ × ℚ)) : List (ℕ × ℚ) :=
  load_slots_aux 0 groups

/-- The spec's description of `set` truncation: keep the `k` entries of
highest weight. -/
def top_by_weight (k : ℕ) (groups : List (ℕ × ℚ)) : List (ℕ × ℚ) :=
  (sortDescW groups).take k

/-- `src/Rig/EditModeWeight.py` lines 544-548: the un-normalized new weight of
the active group, clamped below at zero. -/
def raw_new (dvert : List (ℕ × ℚ)) (active : ℕ) (delta : ℚ) : ℚ :=
  let r := lookupD dvert active 0 + delta
  if r < 0 then 0 else r

/-- `src/Rig/EditModeWeight.py` lines 529-583, per-vertex body of
`WYNN_OT_add_weight.execute`: add `delta` to the active group's weight and
either auto-normalize the vertex (scale the other groups to fill `1 - raw`)
or clamp the vertex total at `1.0` when it overshoots `1.0001`. -/
def add_weight_vertex (autoNormalize : Bool) (dvert : List (ℕ × ℚ)) (active : ℕ)
    (delta : ℚ) : List (ℕ × ℚ) :=
  let raw := raw_new dvert active delta
  if autoNormalize then
    if 1 ≤ raw then [(active, 1)]
    else
      let d1 := setW dvert active raw
      let os := othersSum d1 active
      if 1/10000 < os then
        let scale := (1 - raw) / os
        d1.map (fun p => if p.1 ≠ active then (p.1, p.2 * scale) else p)
      else d1
  else
    let d1 := setW dvert active raw
    let total := totalW d1
    if 10001/10000 < total then d1.map (fun p => (p.1, p.2 * (1 / total))) else d1

/-- Sum of the weights of the entries carrying exactly the key `a`. -/
def activeSum (d : List (ℕ × ℚ)) (a : ℕ) : ℚ :=
  ((d.filter (fun p => p.1 = a)).map Prod.snd).sum

/-- `src/Rig/WynnWeightBrush.py` lines 793-804: one pass over a vertex's
neighbour list accumulating the total edge weight together with the per-group
edge-weighted sums of the neighbours' weights. -/
def accumulateNeighborSums (weightsOf : ℕ → List (ℕ × ℚ))
    (neighbors : List (ℕ × ℚ)) : ℚ × List (ℕ × ℚ) :=
  neighbors.foldl
    (fun st nb =>
      (st.1 + nb.2,
       (weightsOf nb.1).foldl (fun acc gw => dictAdd acc gw.1 (gw.2 * nb.2)) st.2))
    (0, [])

/-- `src/Rig/WynnWeightBrush.py` lines 806-832: the blended, pre-truncation
weight map.  Step A lerps the current weight toward the neighbour average for
every group seen in the neighbourhood; step B decays toward zero the vertex's
own groups still missing from the map; entries at or below `1e-4` are never
recorded. -/
def smooth_blended (weightsOf : ℕ → List (ℕ × ℚ)) (neighbors : List (ℕ × ℚ))
    (vgroups : List (ℕ × ℚ)) (factor : ℚ) : List (ℕ × ℚ) :=
  let te := (accumulateNeighborSums weightsOf neighbors).1
  let sums := (accumulateNeighborSums weightsOf neighbors).2
  let invTE := 1 / te
  let invFactor := 1 - factor
  let stepA := sums.foldl
    (fun acc gw =>
      let nw := lookupD vgroups gw.1 0 * invFactor + gw.2 * invTE * factor
      if 1/10000 < nw then acc ++ [(gw.1, nw)] else acc) []
  vgroups.foldl
    (fun acc gw =>
      if (lookupW acc gw.1).isSome then acc
      else
        let nw := gw.2 * invFactor
        if 1/10000 < nw then acc ++ [(gw.1, nw)] else acc) stepA

/-- `src/Rig/WynnWeightBrush.py` lines 834-870: sort the blended map by
weight (descending), keep the first `k` entries, and — when their raw sum is
non-negligible — renormalize them to total `1.0`; otherwise fall back to the
unchanged vertex. -/
def keep_top_normalize (k : ℕ) (blended fallback : List (ℕ × ℚ)) :
    List (ℕ × ℚ) :=
  let finalList := (sortDescW blended).take k
  let totalFinal := totalW finalList
  if 1/100000 < totalFinal then
    finalList.map (fun p => (p.1, p.2 * (1 / totalFinal)))
  else fallback

/-- `src/Rig/WynnWeightBrush.py`, `smooth_vertex_all_groups`: the Python
fallback Smooth operator on one vertex.  Vertices without neighbours or with
a negligible total edge weight are left unchanged; otherwise the blended map
is truncated to the top `MAX_INFLUENCE = 4` entries and renormalized. -/
def smooth_vertex_all_groups (weightsOf : ℕ → List (ℕ × ℚ))
    (neighbors : List (ℕ × ℚ)) (vgroups : List (ℕ × ℚ)) (factor : ℚ) :
    List (ℕ × ℚ) :=
  if neighbors = [] then vgroups
  else if (accumulateNeighborSums weightsOf neighbors).1 ≤ 1/100000 then vgroups
  else keep_top_normalize 4 (smooth_blended weightsOf neighbors vgroups factor) vgroups

/-- The Smooth truncation step as the claim words it: keep the top `STRIDE = 8`
groups by weight, then renormalize the kept set (same blend, stride 8). -/
def smooth_keep_top_stride8 (weightsOf : ℕ → List (ℕ × ℚ))
    (neighbors : List (ℕ × ℚ)) (vgroups : List (ℕ × ℚ)) (factor : ℚ) :
    List (ℕ × ℚ) :=
  if neighbors = [] then vgroups
  else if (accumulateNeighborSums weightsOf neighbors).1 ≤ 1/100000 then vgroups
  else keep_top_normalize 8 (smooth_blended weightsOf neighbors vgroups factor) vgroups

/-- Weight-descending order on weight-map entries. -/
def geW (a b : ℕ × ℚ) : Prop := b.2 ≤ a.2

/-- Per-vertex lookup in the store (vertex index to its group-weight map). -/
def vertLookup : List (ℕ × List (ℕ × ℚ)) → ℕ → Option (List (ℕ × ℚ))
  | [], _ => none
  | p :: rest, v => if p.1 = v then some p.2 else vertLookup rest v

/-- The group-weight map held for a vertex (empty when the vertex is absent,
a valid zero-influence state). -/
def storeGet (s : List (ℕ × List (ℕ × ℚ))) (v : ℕ) : List (ℕ × ℚ) :=
  (vertLookup s v).getD []

/-- Replace (or create) the group-weight map held for a vertex. -/
def storeSetVert : List (ℕ × List (ℕ × ℚ)) → ℕ → List (ℕ × ℚ) →
    List (ℕ × List (ℕ × ℚ))
  | [], v, dv => [(v, dv)]
  | p :: rest, v, dv => if p.1 = v then (v, dv) :: rest else p :: storeSetVert rest v dv

/-- The weight of group `g` on vertex `v`, `none` when the group does not
influence the vertex. -/
def weightOf (s : List (ℕ × List (ℕ × ℚ))) (v g : ℕ) : Option ℚ :=
  lookupW (storeGet s v) g

/-- `vertex_groups[g].add([v], w, REPLACE)`. -/
def group_add_replace (s : List (ℕ × List (ℕ × ℚ))) (g v : ℕ) (w : ℚ) :
    List (ℕ × List (ℕ × ℚ)) :=
  storeSetVert s v (setW (storeGet s v) g w)

/-- `vertex_groups[g].remove([v])`. -/
def group_remove (s : List (ℕ × List (ℕ × ℚ))) (g v : ℕ) :
    List (ℕ × List (ℕ × ℚ)) :=
  storeSetVert s v (eraseKey (storeGet s v) g)

/-- `src/Rig/WynnWeightBrush.py` lines 568-595, `save_undo_snapshot`: for the
active group, record for *every* vertex its current weight, `0.0` when the
group is absent from the vertex. -/
def save_undo_snapshot (verts : List ℕ) (s : List (ℕ × List (ℕ × ℚ)))
    (active : ℕ) : List (ℕ × List (ℕ × ℚ)) :=
  [(active, verts.map (fun v => (v, (weightOf s v active).getD 0)))]

/-- `src/Rig/WynnWeightBrush.py` lines 605-613, the write-back loop of
`perform_undo`: weights above `1e-4` are written back verbatim, all others
cause removal of the vertex from the group. -/
def apply_entry (g : ℕ) (s : List (ℕ × List (ℕ × ℚ))) (vw : ℕ × ℚ) :
    List (ℕ × List (ℕ × ℚ)) :=
  if 1/10000 < vw.2 then group_add_replace s g vw.1 vw.2
  else group_remove s g vw.1

/-- Apply one popped snapshot back onto the store. -/
def apply_snapshot (s : List (ℕ × List (ℕ × ℚ)))
    (snap : List (ℕ × List (ℕ × ℚ))) : List (ℕ × List (ℕ × ℚ)) :=
  snap.foldl (fun s gws => gws.2.foldl (apply_entry gws.1) s) s

/-- `src/Rig/WynnWeightBrush.py` lines 593-595: bounded undo stack push —
capacity 20, oldest snapshot evicted first. -/
def push_snapshot (stack : List (List (ℕ × List (ℕ × ℚ))))
    (snap : List (ℕ × List (ℕ × ℚ))) : List (List (ℕ × List (ℕ × ℚ))) :=
  let st := stack ++ [snap]
  if 20 < st.length then st.drop 1 else st

/-- `src/Rig/WynnWeightBrush.py` lines 597-614, `perform_undo`: pop the most
recent snapshot and write it back; on an empty stack do nothing and report
`false` (an informational condition, not an error). -/
def perform_undo (stack : List (List (ℕ × List (ℕ × ℚ))))
    (s : List (ℕ × List (ℕ × ℚ))) :
    List (List (ℕ × List (ℕ × ℚ))) × List (ℕ × List (ℕ × ℚ)) × Bool :=
  match stack.getLast? with
  | none => (stack, s, false)
  | some snap => (stack.dropLast, apply_snapshot s snap, true)

/-- Well-formedness of a store: every vertex's group-weight map has distinct
group keys (true of any store read off a real mesh). -/
def storeWF (s : List (ℕ × List (ℕ × ℚ))) : Prop :=
  ∀ p ∈ s, ((p.2.map Prod.fst).Nodup)

/-- Euclidean distance between two vertex positions,
`(v1.co - v2.co).length`. -/
noncomputable def eDist (p q : ℝ × ℝ × ℝ) : ℝ :=
  Real.sqrt ((p.1 - q.1)^2 + (p.2.1 - q.2.1)^2 + (p.2.2 - q.2.2)^2)

/-- Inverse-distance edge weight `1.0 / (dist + 0.0001)`. -/
noncomputable def edgeWeight (p q : ℝ × ℝ × ℝ) : ℝ := 1 / (eDist p q + 1/10000)

/-- `raw_adj[i].append(entry)`. -/
def appendAdjAt (adj : List (List (ℕ × ℝ))) (i : ℕ) (entry : ℕ × ℝ) :
    List (List (ℕ × ℝ)) :=
  adj.set i (adj.getD i [] ++ [entry])

/-- `src/Rig/WynnWeightBrush.py` lines 250-261 (and the analogous loop in
`src/Rig/EditModeWeight.py` lines 341-349): the Python adjacency fallback.
Each undirected edge `(a, b)` appends `(b, w)` to `a`'s neighbour list and
`(a, w)` to `b`'s, `w = 1/(dist + 1e-4)`.  An edge referencing an
out-of-range vertex index makes the whole build fail with nothing built (the
uncaught `IndexError` path — the spec's `InvalidTopology`). -/
noncomputable def buildStep (pos : List (ℝ × ℝ × ℝ))
    (adj : List (List (ℕ × ℝ))) (e : ℕ × ℕ) :
    Option (List (List (ℕ × ℝ))) := do
  let pa ← pos[e.1]?
  let pb ← pos[e.2]?
  let w := edgeWeight pa pb
  pure (appendAdjAt (appendAdjAt adj e.1 (e.2, w)) e.2 (e.1, w))

/-- The whole build: fold the per-edge step over the edge list, starting from
one empty neighbour list per vertex (`raw_adj = [[] for _ in range(num_verts)]`). -/
noncomputable def build_adjacency (pos : List (ℝ × ℝ × ℝ))
    (edges : List (ℕ × ℕ)) : Option (List (List (ℕ × ℝ))) :=
  edges.foldlM (buildStep pos) (List.replicate pos.length [])

/-- `src/Rig/WynnWeightBrush.py` lines 262-269: cursor flattening of the
per-vertex neighbour lists into the CSR arrays (`starts` gets one offset per
vertex plus the final cursor; indices and weights are the concatenation). -/
def csrOf (adj : List (List (ℕ × ℝ))) : List ℕ × List (ℕ × ℝ) :=
  let st := adj.foldl (fun st row => (st.1 ++ [st.2.length], st.2 ++ row))
    (([] : List ℕ), ([] : List (ℕ × ℝ)))
  (st.1 ++ [st.2.length], st.2)

/-- The two directed neighbour entries an edge contributes to vertex `v`, as
the spec words it. -/
noncomputable def edgeContrib (pos : List (ℝ × ℝ × ℝ)) (v : ℕ) (e : ℕ × ℕ) :
    List (ℕ × ℝ) :=
  let w := edgeWeight (pos.getD e.1 default) (pos.getD e.2 default)
  (if e.1 = v then [(e.2, w)] else []) ++ (if e.2 = v then [(e.1, w)] else [])

/-- All neighbour entries vertex `v` receives from an edge list. -/
noncomputable def entriesFor (pos : List (ℝ × ℝ × ℝ)) (edges : List (ℕ × ℕ))
    (v : ℕ) : List (ℕ × ℝ) :=
  (edges.map (edgeContrib pos v)).flatten

/-- The linear ring falloff factor `(steps - i + 1) / (steps + 1)` of
`src/Rig/EditModeWeight.py` line 47 (`i` the 1-based ring index; at `i = 0`
this is the seeds' factor `1`). -/
def falloffFactor (steps : ℤ) (i : ℕ) : ℚ :=
  ((steps : ℚ) - i + 1) / ((steps : ℚ) + 1)

/-- Visiting one neighbour during ring expansion
(`src/Rig/EditModeWeight.py` lines 50-55): an already-visited vertex is
skipped; a new one is marked visited, assigned the ring factor and collected
into the next ring.  The accumulator is (weights, visited, next_ring). -/
def visitNeighbor (factor : ℚ) (acc : List (ℕ × ℚ) × List ℕ × List ℕ)
    (o : ℕ) : List (ℕ × ℚ) × List ℕ × List ℕ :=
  if o ∈ acc.2.1 then acc
  else (acc.1 ++ [(o, factor)], acc.2.1 ++ [o], acc.2.2 ++ [o])

/-- One BFS ring expansion: scan every neighbour of every current-ring
vertex. -/
def expandRing (adj : ℕ → List ℕ) (factor : ℚ) (weights : List (ℕ × ℚ))
    (visited ring : List ℕ) : List (ℕ × ℚ) × List ℕ × List ℕ :=
  ring.foldl (fun acc v => (adj v).foldl (visitNeighbor factor) acc)
    (weights, visited, [])

/-- The loop of `get_falloff_targets` (`src/Rig/EditModeWeight.py` lines
45-58), with the remaining iteration count as fuel (`steps` iterations in
all), `i` the 1-based ring index; expansion stops early when a ring
discovers nothing. -/
def falloffAux (adj : ℕ → List ℕ) (steps : ℤ) :
    ℕ → ℕ → List (ℕ × ℚ) → List ℕ → List ℕ → List (ℕ × ℚ)
  | 0, _, weights, _, _ => weights
  | fuel + 1, i, weights, visited, ring =>
      let r := expandRing adj (falloffFactor steps i) weights visited ring
      if r.2.2 = [] then r.1
      else falloffAux adj steps fuel (i + 1) r.1 r.2.1 r.2.2

/-- `src/Rig/EditModeWeight.py` lines 28-60, `get_falloff_targets`: seeds get
factor `1.0`; for positive `steps` the BFS loop runs; `steps <= 0` returns
just the seeds. -/
def get_falloff_targets (adj : ℕ → List ℕ) (seeds : List ℕ) (steps : ℤ) :
    List (ℕ × ℚ) :=
  let weights := seeds.map (fun v => (v, (1:ℚ)))
  if steps ≤ 0 then weights
  else falloffAux adj steps steps.toNat 1 weights seeds seeds

/-- The first occurrences among `cands` not yet visited — the vertices a BFS
ring newly discovers, in discovery order. -/
def newly (visited : List ℕ) : List ℕ → List ℕ
  | [] => []
  | o :: rest =>
      if o ∈ visited then newly visited rest
      else o :: newly (visited ++ [o]) rest

/-- BFS from the seed set: after `i` expansions, the pair
(visited vertices, ring `i`).  Ring `0` is the seed set itself. -/
def bfsState (adj : ℕ → List ℕ) (seeds : List ℕ) : ℕ → List ℕ × List ℕ
  | 0 => (seeds, seeds)
  | i + 1 =>
      let vr := bfsState adj seeds i
      let nr := newly vr.1 (vr.2.flatMap adj)
      (vr.1 ++ nr, nr)

/-- The vertices first discovered in BFS ring `i` (seeds at `i = 0`). -/
def ringAt (adj : ℕ → List ℕ) (seeds : List ℕ) (i : ℕ) : List ℕ :=
  (bfsState adj seeds i).2

/-- All vertices within `i` BFS rings of the seed set. -/
def visitedAt (adj : ℕ → List ℕ) (seeds : List ℕ) (i : ℕ) : List ℕ :=
  (bfsState adj seeds i).1

/-- The weight map the falloff selector has built after `m` ring
expansions: seeds at factor `1`, ring `i` at factor `(steps - i + 1)/(steps + 1)`. -/
def cumWeights (adj : ℕ → List ℕ) (seeds : List ℕ) (steps : ℤ) :
    ℕ → List (ℕ × ℚ)
  | 0 => seeds.map (fun v => (v, (1:ℚ)))
  | m + 1 =>
      cumWeights adj seeds steps m ++
        (ringAt adj seeds (m + 1)).map (fun v => (v, falloffFactor steps (m + 1)))

-- ### Theorems

theorem lookupW_setW_self (d : List (ℕ × ℚ)) (g : ℕ) (w : ℚ) :
    lookupW (setW d g w) g = some w := by
  induction d with
  | nil => simp [setW, lookupW]
  | cons p rest ih =>
      by_cases h : p.1 = g
      · simp [setW, h, lookupW]
      · simp [setW, h, lookupW, ih]

theorem load_slots_aux_eq_take (gs : List (ℕ × ℚ)) :
    ∀ k, load_slots_aux k gs = gs.take (8 - k) := by
  induction gs with
  | nil => intro k; simp [load_slots_aux]
  | cons g rest ih =>
      intro k
      by_cases h : 8 ≤ k
      · have : 8 - k = 0 := Nat.sub_eq_zero_of_le h
        simp [load_slots_aux, h, this]
      · have hk : k < 8 := Nat.lt_of_not_le h
        have : 8 - k = (8 - (k + 1)) + 1 := by omega
        simp [load_slots_aux, h, ih, this, List.take_succ_cons]

/-- C9 (counterexample): a nine-entry group-weight map whose ninth entry has
the largest weight.  Loading keeps the first eight entries and silently drops
the heaviest one, contradicting the claim that the 8 highest-weight entries
are kept. -/
theorem load_vertex_slots_drops_heaviest :
    lookupW (load_vertex_slots
      [(0, 1/10), (1, 1/10), (2, 1/10), (3, 1/10), (4, 1/10), (5, 1/10),
       (6, 1/10), (7, 1/10), (8, 9/10)]) 8 = none ∧
    lookupW (top_by_weight 8
      [(0, 1/10), (1, 1/10), (2, 1/10), (3, 1/10), (4, 1/10), (5, 1/10),
       (6, 1/10), (7, 1/10), (8, 9/10)]) 8 = some (9/10) := by
  constructor
  · norm_num [load_vertex_slots, load_slots_aux, lookupW]
  · norm_num [top_by_weight, sortDescW, insertDescW, lookupW]

/-- C9 (amended): the strided weight store, when loaded with a vertex's
group-weight map of more than 8 entries, silently truncates to the *first* 8
entries in the supplied iteration order (not the 8 of highest weight), keeps
those entries verbatim, and this truncation is the only loss. -/
theorem load_vertex_slots_eq_take_eight (groups : List (ℕ × ℚ)) :
    load_vertex_slots groups = groups.take 8 := by
  simpa using load_slots_aux_eq_take groups 0

/-- C3: `get_harden_target` is exactly the linear interpolation
`lerp(w, target, factor)` with `target = 1` iff `w ≥ 0.5`, and with total
factor `1.0` a single Harden application on a vertex sets the active group's
weight to exactly `0.0` when `w < 0.5` and exactly `1.0` when `w ≥ 0.5`. -/
theorem harden_lerp_and_convergence :
    (∀ w f : ℚ, get_harden_target w f =
      w + ((if 1/2 ≤ w then (1 : ℚ) else 0) - w) * f) ∧
    (∀ (dvert : List (ℕ × ℚ)) (active : ℕ),
      lookupD (harden_vertex dvert active 1) active 0 =
        if 1/2 ≤ lookupD dvert active 0 then 1 else 0) := by
  constructor
  · intro w f; rfl
  · intro dvert active
    unfold harden_vertex
    rw [lookupD, lookupW_setW_self]
    simp [get_harden_target]

theorem totalW_nil : totalW [] = 0 := rfl

theorem totalW_cons (p : ℕ × ℚ) (d : List (ℕ × ℚ)) :
    totalW (p :: d) = p.2 + totalW d := by
  simp [totalW]

theorem totalW_map_scale_all (d : List (ℕ × ℚ)) (c : ℚ) :
    totalW (d.map (fun p => (p.1, p.2 * c))) = totalW d * c := by
  induction d with
  | nil => simp [totalW]
  | cons p rest ih =>
      simp only [List.map_cons, totalW_cons, ih]
      ring

theorem activeSum_cons (p : ℕ × ℚ) (d : List (ℕ × ℚ)) (a : ℕ) :
    activeSum (p :: d) a = (if p.1 = a then p.2 else 0) + activeSum d a := by
  by_cases h : p.1 = a <;> simp [activeSum, List.filter_cons, h]

theorem othersSum_cons (p : ℕ × ℚ) (d : List (ℕ × ℚ)) (a : ℕ) :
    othersSum (p :: d) a = (if p.1 = a then 0 else p.2) + othersSum d a := by
  by_cases h : p.1 = a <;> simp [othersSum, List.filter_cons, h]

theorem activeSum_nil (a : ℕ) : activeSum [] a = 0 := rfl

theorem othersSum_nil (a : ℕ) : othersSum [] a = 0 := rfl

theorem totalW_map_scale_others (d : List (ℕ × ℚ)) (a : ℕ) (s : ℚ) :
    totalW (d.map (fun p => if p.1 ≠ a then (p.1, p.2 * s) else p)) =
      activeSum d a + s * othersSum d a := by
  induction d with
  | nil => simp [totalW, activeSum_nil, othersSum_nil]
  | cons p rest ih =>
      by_cases h : p.1 = a
      · have hp : (if p.1 ≠ a then (p.1, p.2 * s) else p) = p := by simp [h]
        simp only [List.map_cons, hp, totalW_cons, ih, activeSum_cons, othersSum_cons,
          if_pos h]
        ring
      · have hp : (if p.1 ≠ a then (p.1, p.2 * s) else p) = (p.1, p.2 * s) := by simp [h]
        simp only [List.map_cons, hp, totalW_cons, ih, activeSum_cons, othersSum_cons,
          if_neg h]
        ring

theorem othersSum_setW (d : List (ℕ × ℚ)) (a : ℕ) (w : ℚ) :
    othersSum (setW d a w) a = othersSum d a := by
  induction d with
  | nil => simp [setW, othersSum_cons, othersSum_nil]
  | cons p rest ih =>
      by_cases h : p.1 = a
      · simp [setW, h, othersSum_cons]
      · simp [setW, h, othersSum_cons, ih]

theorem activeSum_of_not_mem (d : List (ℕ × ℚ)) (a : ℕ)
    (h : a ∉ d.map Prod.fst) : activeSum d a = 0 := by
  induction d with
  | nil => rfl
  | cons p rest ih =>
      simp only [List.map_cons, List.mem_cons, not_or] at h
      have hp : ¬ p.1 = a := fun hh => h.1 hh.symm
      rw [activeSum_cons, if_neg hp, ih h.2, zero_add]

theorem activeSum_setW (d : List (ℕ × ℚ)) (a : ℕ) (w : ℚ)
    (hnd : (d.map Prod.fst).Nodup) : activeSum (setW d a w) a = w := by
  induction d with
  | nil => simp [setW, activeSum_cons, activeSum_nil]
  | cons p rest ih =>
      simp only [List.map_cons, List.nodup_cons] at hnd
      by_cases h : p.1 = a
      · have hnm : a ∉ rest.map Prod.fst := by rw [← h]; exact hnd.1
        rw [setW, if_pos h, activeSum_cons, if_pos rfl,
          activeSum_of_not_mem rest a hnm, add_zero]
      · rw [setW, if_neg h, activeSum_cons, if_neg h, ih hnd.2, zero_add]

theorem lookupW_map_scale_others (d : List (ℕ × ℚ)) (a : ℕ) (s : ℚ) :
    lookupW (d.map (fun p => if p.1 ≠ a then (p.1, p.2 * s) else p)) a =
      lookupW d a := by
  induction d with
  | nil => simp [lookupW]
  | cons p rest ih =>
      by_cases h : p.1 = a
      · have hp : (if p.1 ≠ a then (p.1, p.2 * s) else p) = p := by simp [h]
        simp only [List.map_cons, hp]
        rw [lookupW, lookupW, if_pos h, if_pos h]
      · have hp : (if p.1 ≠ a then (p.1, p.2 * s) else p) = (p.1, p.2 * s) := by simp [h]
        simp only [List.map_cons, hp]
        rw [lookupW, lookupW, if_neg h, if_neg h, ih]

theorem mem_setW_of_ne (d : List (ℕ × ℚ)) (a g : ℕ) (v w : ℚ)
    (hg : g ≠ a) (hm : (g, w) ∈ d) : (g, w) ∈ setW d a v := by
  induction d with
  | nil => simp at hm
  | cons p rest ih =>
      by_cases h : p.1 = a
      · rw [setW, if_pos h]
        rcases List.mem_cons.mp hm with h1 | h1
        · exact absurd (by rw [← h1] at h; exact h) hg
        · exact List.mem_cons_of_mem _ h1
      · rw [setW, if_neg h]
        rcases List.mem_cons.mp hm with h1 | h1
        · exact h1 ▸ List.mem_cons_self _ _
        · exact List.mem_cons_of_mem _ (ih h1)

theorem add_no_normalize_single (d : List (ℕ × ℚ)) (a : ℕ) (δ : ℚ) :
    totalW (add_weight_vertex false d a δ) ≤ 10001/10000 := by
  unfold add_weight_vertex
  simp only [Bool.false_eq_true, if_false]
  by_cases h : 10001/10000 < totalW (setW d a (raw_new d a δ))
  · rw [if_pos h, totalW_map_scale_all]
    have hpos : (0 : ℚ) < totalW (setW d a (raw_new d a δ)) := lt_trans (by norm_num) h
    rw [mul_one_div, div_self (ne_of_gt hpos)]
    norm_num
  · rw [if_neg h]
    exact le_of_not_lt h

theorem add_no_normalize_fold (active : ℕ) :
    ∀ (deltas : List ℚ) (d : List (ℕ × ℚ)), deltas ≠ [] →
      totalW (deltas.foldl (fun d δ => add_weight_vertex false d active δ) d) ≤
        10001/10000 := by
  intro deltas
  induction deltas with
  | nil => intro d h; exact absurd rfl h
  | cons x xs ih =>
      intro d _
      cases xs with
      | nil => simpa using add_no_normalize_single d active x
      | cons y ys =>
          simp only [List.foldl_cons]
          exact ih _ (by simp)

/-- C4: for any sequence of Add calls with `auto_normalize = False`, the total
weight on a vertex never exceeds `1.0 + 1e-4` after a call; each call sets the
active group to `max(0, current + delta)`, rescales the whole vertex to total
exactly `1.0` whenever the provisional total exceeds `1.0001`, and leaves
totals at or below `1.0` untouched. -/
theorem add_no_normalize_clamp (dvert : List (ℕ × ℚ)) (active : ℕ) (deltas : List ℚ)
    (h : deltas ≠ []) :
    totalW (deltas.foldl (fun d δ => add_weight_vertex false d active δ) dvert) ≤
      10001/10000 ∧
    (∀ (d : List (ℕ × ℚ)) (δ : ℚ),
      raw_new d active δ = max 0 (lookupD d active 0 + δ)) ∧
    (∀ (d : List (ℕ × ℚ)) (δ : ℚ),
      10001/10000 < totalW (setW d active (raw_new d active δ)) →
      totalW (add_weight_vertex false d active δ) = 1) ∧
    (∀ (d : List (ℕ × ℚ)) (δ : ℚ),
      totalW (setW d active (raw_new d active δ)) ≤ 1 →
      add_weight_vertex false d active δ = setW d active (raw_new d active δ)) := by
  refine ⟨add_no_normalize_fold active deltas dvert h, ?_, ?_, ?_⟩
  · intro d δ
    rw [raw_new]
    rcases lt_or_le (lookupD d active 0 + δ) 0 with hr | hr
    · rw [if_pos hr, max_eq_left (le_of_lt hr)]
    · rw [if_neg (not_lt.mpr hr), max_eq_right hr]
  · intro d δ hlt
    unfold add_weight_vertex
    simp only [Bool.false_eq_true, if_false]
    rw [if_pos hlt, totalW_map_scale_all, mul_one_div,
      div_self (ne_of_gt (lt_trans (by norm_num) hlt))]
  · intro d δ hle
    unfold add_weight_vertex
    simp only [Bool.false_eq_true, if_false]
    rw [if_neg (not_lt.mpr (le_trans hle (by norm_num)))]

/-- C4 (witness): the clamp theorem applied to the single-call sequence
`[1/2]` on the vertex `{0: 3/4}`. -/
theorem add_no_normalize_clamp_witness :
    (([(1:ℚ)/2] : List ℚ) ≠ []) ∧
    (totalW (([(1:ℚ)/2] : List ℚ).foldl
        (fun d δ => add_weight_vertex false d 0 δ) [(0, 3/4)]) ≤ 10001/10000 ∧
    (∀ (d : List (ℕ × ℚ)) (δ : ℚ),
      raw_new d 0 δ = max 0 (lookupD d 0 0 + δ)) ∧
    (∀ (d : List (ℕ × ℚ)) (δ : ℚ),
      10001/10000 < totalW (setW d 0 (raw_new d 0 δ)) →
      totalW (add_weight_vertex false d 0 δ) = 1) ∧
    (∀ (d : List (ℕ × ℚ)) (δ : ℚ),
      totalW (setW d 0 (raw_new d 0 δ)) ≤ 1 →
      add_weight_vertex false d 0 δ = setW d 0 (raw_new d 0 δ))) :=
  ⟨by simp, add_no_normalize_clamp [(0, 3/4)] 0 [1/2] (by simp)⟩

/-- C5 (counterexample): a vertex whose total weight starts at exactly `1.0`,
all of it in the active group.  An auto-normalized Add with `delta = -1/2` has
`raw_new = 1/2 < 1.0`, but the other groups' prior sum is `0`, so the vertex
total drops to `1/2`: the claimed total preservation fails. -/
theorem add_auto_normalize_total_not_preserved :
    totalW [((0:ℕ), (1:ℚ))] = 1 ∧
    raw_new [((0:ℕ), (1:ℚ))] 0 (-(1/2)) < 1 ∧
    totalW (add_weight_vertex true [((0:ℕ), (1:ℚ))] 0 (-(1/2))) = 1/2 ∧
    ¬ (|totalW (add_weight_vertex true [((0:ℕ), (1:ℚ))] 0 (-(1/2))) - 1| ≤
        1/10000) := by
  norm_num [totalW, raw_new, add_weight_vertex, lookupD, lookupW, setW,
    othersSum, List.filter, abs_le]

/-- C5 (amended): for an auto-normalized Add with `raw_new < 1.0`, the active
group is set to `raw_new`, every other group is scaled by the common factor
`(1 - raw_new) / others_sum` (preserving relative proportions), and the vertex
total remains exactly `1.0` — provided the other groups' prior sum exceeds the
`1e-4` threshold; when that sum is at or below the threshold the other groups
are left untouched and the total is not preserved (accepted edge case). -/
theorem add_auto_normalize_preserves_total (dvert : List (ℕ × ℚ)) (active : ℕ)
    (delta : ℚ)
    (hnd : (dvert.map Prod.fst).Nodup)
    (hraw : raw_new dvert active delta < 1)
    (_htot : totalW dvert = 1)
    (hoth : 1/10000 < othersSum dvert active) :
    totalW (add_weight_vertex true dvert active delta) = 1 ∧
    lookupD (add_weight_vertex true dvert active delta) active 0 =
      raw_new dvert active delta ∧
    (∀ g w, g ≠ active → (g, w) ∈ dvert →
      (g, w * ((1 - raw_new dvert active delta) / othersSum dvert active)) ∈
        add_weight_vertex true dvert active delta) := by
  have hb : ¬ (1 ≤ raw_new dvert active delta) := not_le.mpr hraw
  have hosne : othersSum dvert active ≠ 0 :=
    ne_of_gt (lt_trans (by norm_num) hoth)
  have hbranch : add_weight_vertex true dvert active delta =
      (setW dvert active (raw_new dvert active delta)).map
        (fun p => if p.1 ≠ active then
          (p.1, p.2 * ((1 - raw_new dvert active delta) / othersSum dvert active))
        else p) := by
    unfold add_weight_vertex
    simp only [if_true, othersSum_setW]
    rw [if_neg hb, if_pos hoth]
  refine ⟨?_, ?_, ?_⟩
  · rw [hbranch, totalW_map_scale_others, activeSum_setW _ _ _ hnd, othersSum_setW,
      div_mul_cancel₀ _ hosne]
    ring
  · rw [hbranch, lookupD, lookupW_map_scale_others, lookupW_setW_self, Option.getD_some]
  · intro g w hg hm
    have hm1 : (g, w) ∈ setW dvert active (raw_new dvert active delta) :=
      mem_setW_of_ne _ _ _ _ _ hg hm
    have h2 := List.mem_map_of_mem
      (fun p => if p.1 ≠ active then
        (p.1, p.2 * ((1 - raw_new dvert active delta) / othersSum dvert active))
      else p) hm1
    rw [hbranch]
    simpa [hg] using h2

/-- C5 (witness): the amended preservation theorem applied to the vertex
`{0: 1/2, 1: 1/2}` with `delta = 1/4` on active group `0`. -/
theorem add_auto_normalize_preserves_total_witness :
    (([((0:ℕ), (1:ℚ)/2), (1, 1/2)].map Prod.fst).Nodup ∧
     raw_new [((0:ℕ), (1:ℚ)/2), (1, 1/2)] 0 (1/4) < 1 ∧
     totalW [((0:ℕ), (1:ℚ)/2), (1, 1/2)] = 1 ∧
     1/10000 < othersSum [((0:ℕ), (1:ℚ)/2), (1, 1/2)] 0) ∧
    totalW (add_weight_vertex true [((0:ℕ), (1:ℚ)/2), (1, 1/2)] 0 (1/4)) = 1 :=
  ⟨⟨by simp, by norm_num [raw_new, lookupD, lookupW],
    by norm_num [totalW], by norm_num [othersSum, List.filter]⟩,
   (add_auto_normalize_preserves_total [((0:ℕ), (1:ℚ)/2), (1, 1/2)] 0 (1/4)
    (by simp) (by norm_num [raw_new, lookupD, lookupW]) (by norm_num [totalW])
    (by norm_num [othersSum, List.filter])).1⟩

theorem mem_insertDescW (p x : ℕ × ℚ) (l : List (ℕ × ℚ)) :
    x ∈ insertDescW p l ↔ x = p ∨ x ∈ l := by
  induction l with
  | nil => simp [insertDescW]
  | cons q rest ih =>
      by_cases h : q.2 ≤ p.2
      · simp [insertDescW, h]
      · simp [insertDescW, h, ih]
        tauto

theorem perm_insertDescW (p : ℕ × ℚ) (l : List (ℕ × ℚ)) :
    (insertDescW p l).Perm (p :: l) := by
  induction l with
  | nil => simp [insertDescW]
  | cons q rest ih =>
      by_cases h : q.2 ≤ p.2
      · simp [insertDescW, h]
      · rw [insertDescW, if_neg h]
        exact ((ih.cons q).trans (List.Perm.swap p q rest))

theorem perm_sortDescW (l : List (ℕ × ℚ)) : (sortDescW l).Perm l := by
  induction l with
  | nil => simp [sortDescW]
  | cons p rest ih =>
      exact (perm_insertDescW p (sortDescW rest)).trans (ih.cons p) |>.trans (List.Perm.refl _)

theorem pairwise_insertDescW (p : ℕ × ℚ) (l : List (ℕ × ℚ))
    (h : l.Pairwise geW) : (insertDescW p l).Pairwise geW := by
  induction l with
  | nil => simp [insertDescW, List.Pairwise]
  | cons q rest ih =>
      rcases h with _ | ⟨hq, hrest⟩
      by_cases hc : q.2 ≤ p.2
      · rw [insertDescW, if_pos hc]
        refine List.Pairwise.cons ?_ (List.Pairwise.cons hq hrest)
        intro x hx
        rcases List.mem_cons.mp hx with h1 | h1
        · exact h1 ▸ hc
        · exact le_trans (hq x h1) hc
      · rw [insertDescW, if_neg hc]
        refine List.Pairwise.cons ?_ (ih hrest)
        intro x hx
        rcases (mem_insertDescW p x rest).mp hx with h1 | h1
        · exact h1 ▸ le_of_not_le hc
        · exact hq x h1

theorem pairwise_sortDescW (l : List (ℕ × ℚ)) : (sortDescW l).Pairwise geW := by
  induction l with
  | nil => simp [sortDescW, List.Pairwise]
  | cons p rest ih => exact pairwise_insertDescW p (sortDescW rest) ih

theorem take_drop_geW (l : List (ℕ × ℚ)) (k : ℕ) (h : l.Pairwise geW) :
    ∀ p ∈ l.take k, ∀ q ∈ l.drop k, q.2 ≤ p.2 := by
  have h2 : ((l.take k) ++ (l.drop k)).Pairwise geW := by
    rw [List.take_append_drop]
    exact h
  have h3 := List.pairwise_append.mp h2
  intro p hp q hq
  exact h3.2.2 p hp q hq

theorem foldl_pos_invariant {α : Type} (step : List (ℕ × ℚ) → α → List (ℕ × ℚ))
    (hstep : ∀ acc x, step acc x = acc ∨
      ∃ e : ℕ × ℚ, 1/10000 < e.2 ∧ step acc x = acc ++ [e]) :
    ∀ (l : List α) (acc : List (ℕ × ℚ)),
      (∀ p ∈ acc, (1:ℚ)/10000 < p.2) →
      ∀ p ∈ l.foldl step acc, (1:ℚ)/10000 < p.2 := by
  intro l
  induction l with
  | nil => intro acc hacc p hp; exact hacc p hp
  | cons x xs ih =>
      intro acc hacc p hp
      rw [List.foldl_cons] at hp
      refine ih (step acc x) ?_ p hp
      rcases hstep acc x with h | ⟨e, he, h⟩
      · rw [h]; exact hacc
      · rw [h]
        intro q hq
        rcases List.mem_append.mp hq with h1 | h1
        · exact hacc q h1
        · rw [List.mem_singleton.mp h1]; exact he

theorem mem_smooth_blended_pos (W : ℕ → List (ℕ × ℚ)) (nb vg : List (ℕ × ℚ))
    (f : ℚ) : ∀ p ∈ smooth_blended W nb vg f, (1:ℚ)/10000 < p.2 := by
  unfold smooth_blended
  refine foldl_pos_invariant _ ?_ vg _ (foldl_pos_invariant _ ?_ _ [] (by simp))
  · intro acc gw
    show (if (lookupW acc gw.1).isSome = true then acc
      else if (1:ℚ)/10000 < gw.2 * (1 - f)
        then acc ++ [(gw.1, gw.2 * (1 - f))] else acc) = acc ∨ _
    by_cases h : (lookupW acc gw.1).isSome = true
    · left; rw [if_pos h]
    · rw [if_neg h]
      by_cases h2 : (1:ℚ)/10000 < gw.2 * (1 - f)
      · right
        exact ⟨(gw.1, gw.2 * (1 - f)), h2, by rw [if_pos h2]⟩
      · left; rw [if_neg h2]
  · intro acc gw
    show (if (1:ℚ)/10000 < lookupD vg gw.1 0 * (1 - f) +
          gw.2 * (1 / (accumulateNeighborSums W nb).1) * f
      then acc ++ [(gw.1, lookupD vg gw.1 0 * (1 - f) +
          gw.2 * (1 / (accumulateNeighborSums W nb).1) * f)] else acc) = acc ∨ _
    by_cases h2 : (1:ℚ)/10000 <
        lookupD vg gw.1 0 * (1 - f) +
          gw.2 * (1 / (accumulateNeighborSums W nb).1) * f
    · right
      exact ⟨_, h2, by rw [if_pos h2]⟩
    · left; rw [if_neg h2]

theorem totalW_nonneg (l : List (ℕ × ℚ)) (h : ∀ p ∈ l, (0:ℚ) ≤ p.2) :
    0 ≤ totalW l := by
  induction l with
  | nil => simp [totalW]
  | cons p rest ih =>
      rw [totalW_cons]
      have := h p (List.mem_cons_self _ _)
      have hrest := ih (fun q hq => h q (List.mem_cons_of_mem _ hq))
      linarith

theorem totalFinal_pos (blended : List (ℕ × ℚ)) (k : ℕ)
    (hpos : ∀ p ∈ blended, (1:ℚ)/10000 < p.2) (hne : blended ≠ [])
    (hk : 0 < k) : (1:ℚ)/100000 < totalW ((sortDescW blended).take k) := by
  have hperm := perm_sortDescW blended
  have hsne : sortDescW blended ≠ [] := by
    intro h
    exact hne (List.Perm.eq_nil ((h ▸ hperm).symm))
  obtain ⟨p, rest, hcons⟩ := List.exists_cons_of_ne_nil hsne
  have hmem : ∀ q ∈ sortDescW blended, (1:ℚ)/10000 < q.2 := by
    intro q hq
    exact hpos q (hperm.mem_iff.mp hq)
  obtain ⟨k1, rfl⟩ := Nat.exists_eq_succ_of_ne_zero (Nat.pos_iff_ne_zero.mp hk)
  rw [hcons, List.take_succ_cons, totalW_cons]
  have hp : (1:ℚ)/10000 < p.2 := hmem p (hcons ▸ List.mem_cons_self _ _)
  have hrest : 0 ≤ totalW (rest.take k1) := by
    refine totalW_nonneg _ ?_
    intro q hq
    have : q ∈ sortDescW blended := by
      rw [hcons]
      exact List.mem_cons_of_mem _ (List.take_subset _ _ hq)
    exact le_of_lt (lt_trans (by norm_num) (hmem q this))
  have : (1:ℚ)/100000 < 1/10000 := by norm_num
  linarith

theorem keep_top_normalize_total (blended fallback : List (ℕ × ℚ)) (k : ℕ)
    (ht : (1:ℚ)/100000 < totalW ((sortDescW blended).take k)) :
    totalW (keep_top_normalize k blended fallback) = 1 := by
  unfold keep_top_normalize
  rw [if_pos ht, totalW_map_scale_all, mul_one_div,
    div_self (ne_of_gt (lt_trans (by norm_num) ht))]

/-- C2: after Smooth, a target vertex whose blended (kept) set is nonempty —
equivalently, that ends with at least one kept group of positive weight — has
group weights summing to `1.0` within `1e-4` (the model proves the sum is
exactly `1`). -/
theorem smooth_conservation_one (W : ℕ → List (ℕ × ℚ)) (nb vg : List (ℕ × ℚ))
    (f : ℚ)
    (h1 : nb ≠ [])
    (h2 : (1:ℚ)/100000 < (accumulateNeighborSums W nb).1)
    (h3 : smooth_blended W nb vg f ≠ []) :
    |totalW (smooth_vertex_all_groups W nb vg f) - 1| ≤ 1/10000 := by
  have ht : (1:ℚ)/100000 < totalW ((sortDescW (smooth_blended W nb vg f)).take 4) :=
    totalFinal_pos _ 4 (mem_smooth_blended_pos W nb vg f) h3 (by norm_num)
  rw [smooth_vertex_all_groups, if_neg h1, if_neg (not_le.mpr h2),
    keep_top_normalize_total _ _ _ ht]
  norm_num

/-- C2 (witness): the conservation theorem applied to a two-group
neighbourhood with unit edge weight. -/
theorem smooth_conservation_one_witness :
    (([((1:ℕ), (1:ℚ))] : List (ℕ × ℚ)) ≠ [] ∧
     (1:ℚ)/100000 < (accumulateNeighborSums
       (fun n => if n = 1 then [(0, 1/2), (1, 1/2)] else []) [(1, 1)]).1 ∧
     smooth_blended (fun n => if n = 1 then [(0, 1/2), (1, 1/2)] else [])
       [(1, 1)] [(0, 1)] (1/2) ≠ []) ∧
    |totalW (smooth_vertex_all_groups
      (fun n => if n = 1 then [(0, 1/2), (1, 1/2)] else [])
      [(1, 1)] [(0, 1)] (1/2)) - 1| ≤ 1/10000 :=
  ⟨⟨by simp,
    by norm_num [accumulateNeighborSums, dictAdd],
    by refine ne_of_eq_of_ne ?_ (List.cons_ne_nil ((0:ℕ), (3:ℚ)/4) [(1, 1/4)])
       norm_num [smooth_blended, accumulateNeighborSums, dictAdd, lookupD, lookupW]⟩,
   smooth_conservation_one _ _ _ _ (by simp)
    (by norm_num [accumulateNeighborSums, dictAdd])
    (by refine ne_of_eq_of_ne ?_ (List.cons_ne_nil ((0:ℕ), (3:ℚ)/4) [(1, 1/4)])
        norm_num [smooth_blended, accumulateNeighborSums, dictAdd, lookupD, lookupW])⟩

/-- C1 (counterexample): a vertex carrying five groups whose blended weights
are all `1/5` (well above the `1e-4` threshold).  The source operator keeps
only the top `MAX_INFLUENCE = 4` groups, silently dropping group `4`, whereas
the claimed top-`STRIDE`(8) rule would keep all five at weight `1/5`. -/
theorem smooth_drops_fifth_group :
    lookupW (smooth_vertex_all_groups
      (fun n => if n = 1 then [(0, 1/5), (1, 1/5), (2, 1/5), (3, 1/5), (4, 1/5)]
        else [])
      [(1, 1)] [(0, 1/5), (1, 1/5), (2, 1/5), (3, 1/5), (4, 1/5)] (1/2)) 4 =
        none ∧
    lookupW (smooth_keep_top_stride8
      (fun n => if n = 1 then [(0, 1/5), (1, 1/5), (2, 1/5), (3, 1/5), (4, 1/5)]
        else [])
      [(1, 1)] [(0, 1/5), (1, 1/5), (2, 1/5), (3, 1/5), (4, 1/5)] (1/2)) 4 =
        some (1/5) ∧
    smooth_vertex_all_groups
      (fun n => if n = 1 then [(0, 1/5), (1, 1/5), (2, 1/5), (3, 1/5), (4, 1/5)]
        else [])
      [(1, 1)] [(0, 1/5), (1, 1/5), (2, 1/5), (3, 1/5), (4, 1/5)] (1/2) ≠
    smooth_keep_top_stride8
      (fun n => if n = 1 then [(0, 1/5), (1, 1/5), (2, 1/5), (3, 1/5), (4, 1/5)]
        else [])
      [(1, 1)] [(0, 1/5), (1, 1/5), (2, 1/5), (3, 1/5), (4, 1/5)] (1/2) := by
  refine ⟨?_, ?_, ?_⟩ <;>
    norm_num [smooth_vertex_all_groups, smooth_keep_top_stride8,
      keep_top_normalize, smooth_blended, accumulateNeighborSums, dictAdd,
      lookupD, lookupW, sortDescW, insertDescW, totalW]

/-- C1 (amended): after blending, the Smooth operator keeps only the top
`MAX_INFLUENCE = 4` groups ranked by blended weight — not `STRIDE = 8` —
discards all other groups, and renormalizes the kept set so its weights sum
to exactly `1.0` whenever the kept raw sum is non-negligible (above `1e-5`);
otherwise the vertex is left entirely as-is. -/
theorem smooth_keeps_top_four (W : ℕ → List (ℕ × ℚ)) (nb vg : List (ℕ × ℚ))
    (f : ℚ)
    (h1 : nb ≠ [])
    (h2 : (1:ℚ)/100000 < (accumulateNeighborSums W nb).1)
    (h3 : smooth_blended W nb vg f ≠ []) :
    smooth_vertex_all_groups W nb vg f =
      ((sortDescW (smooth_blended W nb vg f)).take 4).map
        (fun p => (p.1,
          p.2 * (1 / totalW ((sortDescW (smooth_blended W nb vg f)).take 4)))) ∧
    (smooth_vertex_all_groups W nb vg f).length =
      min 4 (smooth_blended W nb vg f).length ∧
    (∀ p ∈ (sortDescW (smooth_blended W nb vg f)).take 4,
     ∀ q ∈ (sortDescW (smooth_blended W nb vg f)).drop 4, q.2 ≤ p.2) ∧
    (∀ p ∈ smooth_vertex_all_groups W nb vg f, ∃ w,
      (p.1, w) ∈ smooth_blended W nb vg f ∧
      p.2 = w * (1 / totalW ((sortDescW (smooth_blended W nb vg f)).take 4))) ∧
    totalW (smooth_vertex_all_groups W nb vg f) = 1 := by
  have ht : (1:ℚ)/100000 < totalW ((sortDescW (smooth_blended W nb vg f)).take 4) :=
    totalFinal_pos _ 4 (mem_smooth_blended_pos W nb vg f) h3 (by norm_num)
  have hres : smooth_vertex_all_groups W nb vg f =
      ((sortDescW (smooth_blended W nb vg f)).take 4).map
        (fun p => (p.1,
          p.2 * (1 / totalW ((sortDescW (smooth_blended W nb vg f)).take 4)))) := by
    rw [smooth_vertex_all_groups, if_neg h1, if_neg (not_le.mpr h2),
      keep_top_normalize, if_pos ht]
  refine ⟨hres, ?_, ?_, ?_, ?_⟩
  · rw [hres, List.length_map, List.length_take,
      (perm_sortDescW (smooth_blended W nb vg f)).length_eq]
  · exact take_drop_geW _ 4 (pairwise_sortDescW _)
  · intro p hp
    rw [hres] at hp
    obtain ⟨q, hq, rfl⟩ := List.mem_map.mp hp
    exact ⟨q.2,
      (perm_sortDescW _).mem_iff.mp (List.take_subset _ _ hq), rfl⟩
  · rw [hres, totalW_map_scale_all, mul_one_div, div_self (ne_of_gt
      (lt_trans (by norm_num) ht))]

/-- C1 (witness): the amended truncation theorem applied to the five-group
vertex of the counterexample. -/
theorem smooth_keeps_top_four_witness :
    (([((1:ℕ), (1:ℚ))] : List (ℕ × ℚ)) ≠ [] ∧
     (1:ℚ)/100000 < (accumulateNeighborSums
       (fun n => if n = 1 then [(0, 1/5), (1, 1/5), (2, 1/5), (3, 1/5), (4, 1/5)]
         else []) [(1, 1)]).1 ∧
     smooth_blended
       (fun n => if n = 1 then [(0, 1/5), (1, 1/5), (2, 1/5), (3, 1/5), (4, 1/5)]
         else [])
       [(1, 1)] [(0, 1/5), (1, 1/5), (2, 1/5), (3, 1/5), (4, 1/5)] (1/2) ≠ []) ∧
    totalW (smooth_vertex_all_groups
      (fun n => if n = 1 then [(0, 1/5), (1, 1/5), (2, 1/5), (3, 1/5), (4, 1/5)]
        else [])
      [(1, 1)] [(0, 1/5), (1, 1/5), (2, 1/5), (3, 1/5), (4, 1/5)] (1/2)) = 1 :=
  ⟨⟨by simp,
    by norm_num [accumulateNeighborSums, dictAdd],
    by refine ne_of_eq_of_ne ?_ (List.cons_ne_nil ((0:ℕ), (1:ℚ)/5)
         [(1, 1/5), (2, 1/5), (3, 1/5), (4, 1/5)])
       norm_num [smooth_blended, accumulateNeighborSums, dictAdd, lookupD, lookupW]⟩,
   (smooth_keeps_top_four _ _ _ _ (by simp)
    (by norm_num [accumulateNeighborSums, dictAdd])
    (by refine ne_of_eq_of_ne ?_ (List.cons_ne_nil ((0:ℕ), (1:ℚ)/5)
          [(1, 1/5), (2, 1/5), (3, 1/5), (4, 1/5)])
        norm_num [smooth_blended, accumulateNeighborSums, dictAdd, lookupD,
          lookupW])).2.2.2.2⟩

theorem vertLookup_storeSetVert_self (s : List (ℕ × List (ℕ × ℚ))) (v : ℕ)
    (dv : List (ℕ × ℚ)) : vertLookup (storeSetVert s v dv) v = some dv := by
  induction s with
  | nil => simp [storeSetVert, vertLookup]
  | cons p rest ih =>
      by_cases h : p.1 = v
      · simp [storeSetVert, h, vertLookup]
      · simp [storeSetVert, h, vertLookup, ih]

theorem vertLookup_storeSetVert_ne (s : List (ℕ × List (ℕ × ℚ))) (u v : ℕ)
    (dv : List (ℕ × ℚ)) (h : u ≠ v) :
    vertLookup (storeSetVert s u dv) v = vertLookup s v := by
  induction s with
  | nil => simp [storeSetVert, vertLookup, h]
  | cons p rest ih =>
      by_cases hp : p.1 = u
      · rw [storeSetVert, if_pos hp, vertLookup, if_neg h, vertLookup, if_neg (hp ▸ h)]
      · rw [storeSetVert, if_neg hp, vertLookup, vertLookup]
        by_cases hv : p.1 = v
        · rw [if_pos hv, if_pos hv]
        · rw [if_neg hv, if_neg hv, ih]

theorem lookupW_eq_none_of_not_mem (d : List (ℕ × ℚ)) (g : ℕ)
    (h : g ∉ d.map Prod.fst) : lookupW d g = none := by
  induction d with
  | nil => rfl
  | cons p rest ih =>
      simp only [List.map_cons, List.mem_cons, not_or] at h
      rw [lookupW, if_neg (fun hh => h.1 hh.symm), ih h.2]

theorem lookupW_eraseKey_self (d : List (ℕ × ℚ)) (g : ℕ)
    (hnd : (d.map Prod.fst).Nodup) : lookupW (eraseKey d g) g = none := by
  induction d with
  | nil => rfl
  | cons p rest ih =>
      simp only [List.map_cons, List.nodup_cons] at hnd
      by_cases h : p.1 = g
      · rw [eraseKey, if_pos h]
        exact lookupW_eq_none_of_not_mem rest g (h ▸ hnd.1)
      · rw [eraseKey, if_neg h, lookupW, if_neg h, ih hnd.2]

theorem mem_setW (d : List (ℕ × ℚ)) (g : ℕ) (w : ℚ) (q : ℕ × ℚ)
    (hq : q ∈ setW d g w) : q = (g, w) ∨ q ∈ d := by
  induction d with
  | nil => simpa [setW] using hq
  | cons p rest ih =>
      by_cases h : p.1 = g
      · rw [setW, if_pos h] at hq
        rcases List.mem_cons.mp hq with h1 | h1
        · exact Or.inl h1
        · exact Or.inr (List.mem_cons_of_mem _ h1)
      · rw [setW, if_neg h] at hq
        rcases List.mem_cons.mp hq with h1 | h1
        · exact Or.inr (h1 ▸ List.mem_cons_self _ _)
        · rcases ih h1 with h2 | h2
          · exact Or.inl h2
          · exact Or.inr (List.mem_cons_of_mem _ h2)

theorem mem_eraseKey (d : List (ℕ × ℚ)) (g : ℕ) (q : ℕ × ℚ)
    (hq : q ∈ eraseKey d g) : q ∈ d := by
  induction d with
  | nil => simp [eraseKey] at hq
  | cons p rest ih =>
      by_cases h : p.1 = g
      · rw [eraseKey, if_pos h] at hq
        exact List.mem_cons_of_mem _ hq
      · rw [eraseKey, if_neg h] at hq
        rcases List.mem_cons.mp hq with h1 | h1
        · exact h1 ▸ List.mem_cons_self _ _
        · exact List.mem_cons_of_mem _ (ih h1)

theorem keys_nodup_setW (d : List (ℕ × ℚ)) (g : ℕ) (w : ℚ)
    (hnd : (d.map Prod.fst).Nodup) : ((setW d g w).map Prod.fst).Nodup := by
  induction d with
  | nil => simp [setW]
  | cons p rest ih =>
      simp only [List.map_cons, List.nodup_cons] at hnd
      by_cases h : p.1 = g
      · rw [setW, if_pos h, List.map_cons, List.nodup_cons]
        exact ⟨h ▸ hnd.1, hnd.2⟩
      · have hmem : p.1 ∉ (setW rest g w).map Prod.fst := by
          intro hmm
          rcases List.mem_map.mp hmm with ⟨q, hq, hq1⟩
          rcases mem_setW rest g w q hq with h1 | h1
          · exact h (by rw [← hq1, h1])
          · exact hnd.1 (hq1 ▸ List.mem_map_of_mem Prod.fst h1)
        rw [setW, if_neg h, List.map_cons, List.nodup_cons]
        exact ⟨hmem, ih hnd.2⟩

theorem keys_nodup_eraseKey (d : List (ℕ × ℚ)) (g : ℕ)
    (hnd : (d.map Prod.fst).Nodup) : ((eraseKey d g).map Prod.fst).Nodup := by
  induction d with
  | nil => simp [eraseKey]
  | cons p rest ih =>
      simp only [List.map_cons, List.nodup_cons] at hnd
      by_cases h : p.1 = g
      · rw [eraseKey, if_pos h]; exact hnd.2
      · have hmem : p.1 ∉ (eraseKey rest g).map Prod.fst := by
          intro hmm
          rcases List.mem_map.mp hmm with ⟨q, hq, hq1⟩
          exact hnd.1 (hq1 ▸ List.mem_map_of_mem Prod.fst (mem_eraseKey rest g q hq))
        rw [eraseKey, if_neg h, List.map_cons, List.nodup_cons]
        exact ⟨hmem, ih hnd.2⟩

theorem mem_storeSetVert (s : List (ℕ × List (ℕ × ℚ))) (v : ℕ)
    (dv : List (ℕ × ℚ)) (q : ℕ × List (ℕ × ℚ)) (hq : q ∈ storeSetVert s v dv) :
    q = (v, dv) ∨ q ∈ s := by
  induction s with
  | nil => simpa [storeSetVert] using hq
  | cons p rest ih =>
      by_cases h : p.1 = v
      · rw [storeSetVert, if_pos h] at hq
        rcases List.mem_cons.mp hq with h1 | h1
        · exact Or.inl h1
        · exact Or.inr (List.mem_cons_of_mem _ h1)
      · rw [storeSetVert, if_neg h] at hq
        rcases List.mem_cons.mp hq with h1 | h1
        · exact Or.inr (h1 ▸ List.mem_cons_self _ _)
        · rcases ih h1 with h2 | h2
          · exact Or.inl h2
          · exact Or.inr (List.mem_cons_of_mem _ h2)

theorem storeGet_wf (s : List (ℕ × List (ℕ × ℚ))) (v : ℕ) (hwf : storeWF s) :
    ((storeGet s v).map Prod.fst).Nodup := by
  unfold storeGet
  induction s with
  | nil => simp [vertLookup]
  | cons p rest ih =>
      by_cases h : p.1 = v
      · rw [vertLookup, if_pos h, Option.getD_some]
        exact hwf p (List.mem_cons_self _ _)
      · rw [vertLookup, if_neg h]
        exact ih (fun q hq => hwf q (List.mem_cons_of_mem _ hq))

theorem storeWF_storeSetVert (s : List (ℕ × List (ℕ × ℚ))) (v : ℕ)
    (dv : List (ℕ × ℚ)) (hwf : storeWF s) (hdv : (dv.map Prod.fst).Nodup) :
    storeWF (storeSetVert s v dv) := by
  intro q hq
  rcases mem_storeSetVert s v dv q hq with h | h
  · rw [h]; exact hdv
  · exact hwf q h

theorem storeWF_apply_entry (g : ℕ) (s : List (ℕ × List (ℕ × ℚ)))
    (vw : ℕ × ℚ) (hwf : storeWF s) : storeWF (apply_entry g s vw) := by
  unfold apply_entry
  by_cases h : (1:ℚ)/10000 < vw.2
  · rw [if_pos h]
    exact storeWF_storeSetVert _ _ _ hwf
      (keys_nodup_setW _ _ _ (storeGet_wf s vw.1 hwf))
  · rw [if_neg h]
    exact storeWF_storeSetVert _ _ _ hwf
      (keys_nodup_eraseKey _ _ (storeGet_wf s vw.1 hwf))

theorem weightOf_apply_entry_self (g : ℕ) (s : List (ℕ × List (ℕ × ℚ)))
    (v : ℕ) (w : ℚ) (hwf : storeWF s) :
    weightOf (apply_entry g s (v, w)) v g =
      if (1:ℚ)/10000 < w then some w else none := by
  simp only [apply_entry]
  by_cases h : (1:ℚ)/10000 < w
  · rw [if_pos h, if_pos h]
    unfold weightOf group_add_replace storeGet
    rw [vertLookup_storeSetVert_self, Option.getD_some, lookupW_setW_self]
  · rw [if_neg h, if_neg h]
    unfold weightOf group_remove storeGet
    rw [vertLookup_storeSetVert_self, Option.getD_some]
    exact lookupW_eraseKey_self _ _ (storeGet_wf s v hwf)

theorem weightOf_apply_entry_other (g g2 : ℕ) (s : List (ℕ × List (ℕ × ℚ)))
    (vw : ℕ × ℚ) (v : ℕ) (h : vw.1 ≠ v) :
    weightOf (apply_entry g s vw) v g2 = weightOf s v g2 := by
  unfold apply_entry
  by_cases hc : (1:ℚ)/10000 < vw.2
  · rw [if_pos hc]
    unfold weightOf group_add_replace storeGet
    rw [vertLookup_storeSetVert_ne _ _ _ _ h]
  · rw [if_neg hc]
    unfold weightOf group_remove storeGet
    rw [vertLookup_storeSetVert_ne _ _ _ _ h]

theorem weightOf_fold_not_mem (g g2 v : ℕ) :
    ∀ (ws : List (ℕ × ℚ)) (s : List (ℕ × List (ℕ × ℚ))),
      v ∉ ws.map Prod.fst →
      weightOf (ws.foldl (apply_entry g) s) v g2 = weightOf s v g2 := by
  intro ws
  induction ws with
  | nil => intro s _; rfl
  | cons vw rest ih =>
      intro s h
      simp only [List.map_cons, List.mem_cons, not_or] at h
      rw [List.foldl_cons, ih _ h.2,
        weightOf_apply_entry_other _ _ _ _ _ (fun hh => h.1 hh.symm)]

theorem storeWF_fold (g : ℕ) :
    ∀ (ws : List (ℕ × ℚ)) (s : List (ℕ × List (ℕ × ℚ))),
      storeWF s → storeWF (ws.foldl (apply_entry g) s) := by
  intro ws
  induction ws with
  | nil => intro s h; exact h
  | cons vw rest ih =>
      intro s h
      rw [List.foldl_cons]
      exact ih _ (storeWF_apply_entry g s vw h)

/-- C8 (amended): snapshot → arbitrary mutation → `perform_undo` restores,
for every recorded vertex, the exact pre-mutation weight of the snapshotted
group whenever that weight exceeds `1e-4`, and otherwise (including vertices
recorded at weight `0`) removes the vertex from the group, i.e. restores
weight zero — weights in `(0, 1e-4]` are not restored bit-exact;
`perform_undo` on an empty stack is a non-fatal no-op reported as `false`. -/
theorem undo_round_trip (verts : List ℕ) (s0 s1 : List (ℕ × List (ℕ × ℚ)))
    (active v : ℕ)
    (hnd : verts.Nodup) (hv : v ∈ verts) (hwf : storeWF s1) :
    weightOf (apply_snapshot s1 (save_undo_snapshot verts s0 active)) v active =
      (if (1:ℚ)/10000 < (weightOf s0 v active).getD 0
        then some ((weightOf s0 v active).getD 0) else none) ∧
    (∀ s : List (ℕ × List (ℕ × ℚ)), perform_undo [] s = ([], s, false)) := by
  constructor
  · obtain ⟨l1, l2, rfl⟩ := List.append_of_mem hv
    rw [List.nodup_append] at hnd
    have hv2 : v ∈ v :: l2 := List.mem_cons_self _ _
    have hnv2 : v ∉ l2 := (List.nodup_cons.mp hnd.2.1).1
    rw [save_undo_snapshot, apply_snapshot]
    simp only [List.foldl_cons, List.foldl_nil]
    rw [List.map_append, List.map_cons, List.foldl_append, List.foldl_cons]
    have hkeys : v ∉ (l2.map
        (fun u => (u, (weightOf s0 u active).getD 0))).map Prod.fst := by
      simpa [List.map_map, Function.comp] using hnv2
    rw [weightOf_fold_not_mem _ _ _ _ _ hkeys,
      weightOf_apply_entry_self _ _ _ _
        (storeWF_fold active _ s1 hwf)]
  · intro s; rfl

/-- C8 (counterexample): a vertex holding the tiny weight `1/20000 = 5e-5`
(positive, at most `1e-4`) in the snapshotted group.  After mutation,
`perform_undo`'s write-back removes the vertex instead of restoring the
recorded float, so the restore is not bit-exact. -/
theorem undo_not_bit_exact :
    weightOf [((0:ℕ), [((5:ℕ), (1:ℚ)/20000)])] 0 5 = some (1/20000) ∧
    weightOf (apply_snapshot [((0:ℕ), [((5:ℕ), (7:ℚ)/10)])]
      (save_undo_snapshot [0] [((0:ℕ), [((5:ℕ), (1:ℚ)/20000)])] 5)) 0 5 =
      none := by
  constructor <;>
    norm_num [weightOf, storeGet, vertLookup, lookupW, apply_snapshot,
      save_undo_snapshot, apply_entry, group_add_replace, group_remove,
      storeSetVert, eraseKey, setW]

/-- C8 (witness): the round-trip theorem applied to a two-vertex store whose
pre-mutation weight of group `2` on vertex `0` is `1/2`. -/
theorem undo_round_trip_witness :
    (([0, 1] : List ℕ).Nodup ∧ (0:ℕ) ∈ ([0, 1] : List ℕ) ∧
      storeWF [((0:ℕ), [((2:ℕ), (1:ℚ)/4)]), (1, [(2, 1)])]) ∧
    (weightOf (apply_snapshot [((0:ℕ), [((2:ℕ), (1:ℚ)/4)]), (1, [(2, 1)])]
        (save_undo_snapshot [0, 1] [((0:ℕ), [((2:ℕ), (1:ℚ)/2)])] 2)) 0 2 =
      (if (1:ℚ)/10000 <
          (weightOf [((0:ℕ), [((2:ℕ), (1:ℚ)/2)])] 0 2).getD 0
        then some ((weightOf [((0:ℕ), [((2:ℕ), (1:ℚ)/2)])] 0 2).getD 0)
        else none) ∧
    (∀ s : List (ℕ × List (ℕ × ℚ)), perform_undo [] s = ([], s, false))) :=
  ⟨⟨by simp, by simp, by simp [storeWF]⟩,
   undo_round_trip [0, 1] [((0:ℕ), [((2:ℕ), (1:ℚ)/2)])]
    [((0:ℕ), [((2:ℕ), (1:ℚ)/4)]), (1, [(2, 1)])] 2 0
    (by simp) (by simp) (by simp [storeWF])⟩

theorem length_appendAdjAt (adj : List (List (ℕ × ℝ))) (i : ℕ) (e : ℕ × ℝ) :
    (appendAdjAt adj i e).length = adj.length := by
  simp [appendAdjAt]

theorem getElem?_appendAdjAt_self (adj : List (List (ℕ × ℝ))) (i : ℕ)
    (e : ℕ × ℝ) (h : i < adj.length) :
    (appendAdjAt adj i e)[i]? = some (adj[i]?.getD [] ++ [e]) := by
  rw [appendAdjAt, List.getElem?_set_self h, List.getD_eq_getElem?_getD]

theorem getElem?_appendAdjAt_ne (adj : List (List (ℕ × ℝ))) (i j : ℕ)
    (e : ℕ × ℝ) (h : i ≠ j) : (appendAdjAt adj i e)[j]? = adj[j]? := by
  rw [appendAdjAt, List.getElem?_set_ne h]

theorem sumlen_appendAdjAt (adj : List (List (ℕ × ℝ))) (e : ℕ × ℝ) :
    ∀ i, i < adj.length →
      ((appendAdjAt adj i e).map List.length).sum =
        (adj.map List.length).sum + 1 := by
  induction adj with
  | nil => intro i h; simp at h
  | cons row rest ih =>
      intro i h
      cases i with
      | zero =>
          simp [appendAdjAt, List.getD]
          ring
      | succ k =>
          have hk : k < rest.length := by simpa using h
          have : (appendAdjAt (row :: rest) (k + 1) e) =
              row :: appendAdjAt rest k e := by
            simp [appendAdjAt, List.getD]
          rw [this]
          simp only [List.map_cons, List.sum_cons, ih k hk]
          ring

theorem buildStep_some (pos : List (ℝ × ℝ × ℝ)) (adj : List (List (ℕ × ℝ)))
    (e : ℕ × ℕ) (h1 : e.1 < pos.length) (h2 : e.2 < pos.length) :
    buildStep pos adj e = some
      (appendAdjAt
        (appendAdjAt adj e.1
          (e.2, edgeWeight (pos.getD e.1 default) (pos.getD e.2 default)))
        e.2
        (e.1, edgeWeight (pos.getD e.1 default) (pos.getD e.2 default))) := by
  unfold buildStep
  rw [List.getElem?_eq_getElem h1, List.getElem?_eq_getElem h2]
  simp [List.getD_eq_getElem?_getD, List.getElem?_eq_getElem, h1, h2]

theorem step_result_getD (pos : List (ℝ × ℝ × ℝ)) (adj : List (List (ℕ × ℝ)))
    (e : ℕ × ℕ) (he1 : e.1 < adj.length) (he2 : e.2 < adj.length)
    (v : ℕ) (hv : v < adj.length) :
    (appendAdjAt
      (appendAdjAt adj e.1
        (e.2, edgeWeight (pos.getD e.1 default) (pos.getD e.2 default)))
      e.2
      (e.1, edgeWeight (pos.getD e.1 default) (pos.getD e.2 default)))[v]?.getD []
    = adj[v]?.getD [] ++ edgeContrib pos v e := by
  have hlen1 : (appendAdjAt adj e.1
      (e.2, edgeWeight (pos.getD e.1 default) (pos.getD e.2 default))).length
      = adj.length := length_appendAdjAt _ _ _
  by_cases h2 : e.2 = v
  · subst h2
    rw [getElem?_appendAdjAt_self _ _ _ (hlen1 ▸ he2), Option.getD_some]
    by_cases h1 : e.1 = e.2
    · rw [h1, getElem?_appendAdjAt_self _ _ _ he2, Option.getD_some]
      simp [edgeContrib, h1]
    · rw [getElem?_appendAdjAt_ne _ _ _ _ h1]
      simp [edgeContrib, h1]
  · rw [getElem?_appendAdjAt_ne _ _ _ _ h2]
    by_cases h1 : e.1 = v
    · subst h1
      rw [getElem?_appendAdjAt_self _ _ _ he1, Option.getD_some]
      simp [edgeContrib, h2]
    · rw [getElem?_appendAdjAt_ne _ _ _ _ h1]
      simp [edgeContrib, h1, h2]

theorem entriesFor_cons (pos : List (ℝ × ℝ × ℝ)) (e : ℕ × ℕ)
    (es : List (ℕ × ℕ)) (v : ℕ) :
    entriesFor pos (e :: es) v = edgeContrib pos v e ++ entriesFor pos es v := by
  simp [entriesFor]

theorem build_go (pos : List (ℝ × ℝ × ℝ)) :
    ∀ (edges : List (ℕ × ℕ)) (adj : List (List (ℕ × ℝ))),
      adj.length = pos.length →
      (∀ e ∈ edges, e.1 < pos.length ∧ e.2 < pos.length) →
      ∃ adj2, edges.foldlM (buildStep pos) adj = some adj2 ∧
        adj2.length = pos.length ∧
        (∀ v, v < pos.length →
          adj2[v]?.getD [] = adj[v]?.getD [] ++ entriesFor pos edges v) ∧
        (adj2.map List.length).sum =
          (adj.map List.length).sum + 2 * edges.length := by
  intro edges
  induction edges with
  | nil =>
      intro adj hlen _
      refine ⟨adj, rfl, hlen, ?_, by simp⟩
      intro v _
      simp [entriesFor]
  | cons e es ih =>
      intro adj hlen h
      have he := h e (List.mem_cons_self _ _)
      have he1 : e.1 < adj.length := hlen ▸ he.1
      have he2 : e.2 < adj.length := hlen ▸ he.2
      have hlen1 : (appendAdjAt adj e.1
          (e.2, edgeWeight (pos.getD e.1 default) (pos.getD e.2 default))).length
          = adj.length := length_appendAdjAt _ _ _
      have hlen2 : (appendAdjAt
          (appendAdjAt adj e.1
            (e.2, edgeWeight (pos.getD e.1 default) (pos.getD e.2 default)))
          e.2
          (e.1, edgeWeight (pos.getD e.1 default) (pos.getD e.2 default))).length
          = pos.length := by rw [length_appendAdjAt, hlen1, hlen]
      obtain ⟨adj2, hfold, hlen3, hget, hsum⟩ :=
        ih _ hlen2 (fun q hq => h q (List.mem_cons_of_mem _ hq))
      refine ⟨adj2, ?_, hlen3, ?_, ?_⟩
      · rw [List.foldlM_cons, buildStep_some pos adj e he.1 he.2]
        simpa using hfold
      · intro v hv
        rw [hget v hv, step_result_getD pos adj e he1 he2 v (hlen ▸ hv),
          entriesFor_cons, List.append_assoc]
      · rw [hsum, sumlen_appendAdjAt _ _ e.2 (hlen1 ▸ he2),
          sumlen_appendAdjAt _ _ e.1 he1]
        simp only [List.length_cons]
        ring

theorem csr_fold (adj : List (List (ℕ × ℝ))) :
    ∀ acc : List ℕ × List (ℕ × ℝ),
      (adj.foldl (fun st row => (st.1 ++ [st.2.length], st.2 ++ row)) acc).1.length
        = acc.1.length + adj.length ∧
      (adj.foldl (fun st row => (st.1 ++ [st.2.length], st.2 ++ row)) acc).2
        = acc.2 ++ adj.flatten := by
  induction adj with
  | nil => intro acc; simp
  | cons row rest ih =>
      intro acc
      rw [List.foldl_cons]
      refine ⟨?_, ?_⟩
      · rw [(ih _).1]
        simp
        ring
      · rw [(ih _).2]
        simp

theorem csrOf_snd (adj : List (List (ℕ × ℝ))) : (csrOf adj).2 = adj.flatten := by
  unfold csrOf
  simpa using (csr_fold adj ([], [])).2

theorem csrOf_fst_length (adj : List (List (ℕ × ℝ))) :
    (csrOf adj).1.length = adj.length + 1 := by
  unfold csrOf
  simp [(csr_fold adj ([], [])).1]

theorem mem_entriesFor_of_mem (pos : List (ℝ × ℝ × ℝ)) (edges : List (ℕ × ℕ))
    (e : ℕ × ℕ) (he : e ∈ edges) :
    (e.2, edgeWeight (pos.getD e.1 default) (pos.getD e.2 default)) ∈
      entriesFor pos edges e.1 ∧
    (e.1, edgeWeight (pos.getD e.1 default) (pos.getD e.2 default)) ∈
      entriesFor pos edges e.2 := by
  constructor
  · refine List.mem_flatten.mpr ⟨edgeContrib pos e.1 e,
      List.mem_map_of_mem _ he, ?_⟩
    simp [edgeContrib]
  · refine List.mem_flatten.mpr ⟨edgeContrib pos e.2 e,
      List.mem_map_of_mem _ he, ?_⟩
    by_cases h : e.1 = e.2 <;> simp [edgeContrib, h]

/-- C7: on an edge list whose endpoints are all in range, the adjacency
builder succeeds, gives every vertex `v` exactly the directed entries its
edges contribute — `(b, w)` on `a`'s list and `(a, w)` on `b`'s with
`w = 1/(dist(pos[a], pos[b]) + 1e-4)` — and the flattened CSR neighbour array
holds exactly `2 * edge_count` entries (with `vertex_count + 1` start
offsets). -/
theorem build_adjacency_spec (pos : List (ℝ × ℝ × ℝ)) (edges : List (ℕ × ℕ))
    (h : ∀ e ∈ edges, e.1 < pos.length ∧ e.2 < pos.length) :
    ∃ adj, build_adjacency pos edges = some adj ∧
      adj.length = pos.length ∧
      (∀ v, v < pos.length → adj[v]?.getD [] = entriesFor pos edges v) ∧
      (∀ e ∈ edges,
        (e.2, edgeWeight (pos.getD e.1 default) (pos.getD e.2 default)) ∈
          adj[e.1]?.getD [] ∧
        (e.1, edgeWeight (pos.getD e.1 default) (pos.getD e.2 default)) ∈
          adj[e.2]?.getD []) ∧
      ((csrOf adj).2).length = 2 * edges.length ∧
      ((csrOf adj).1).length = pos.length + 1 := by
  obtain ⟨adj, hfold, hlen, hget, hsum⟩ :=
    build_go pos edges (List.replicate pos.length []) (by simp) h
  have hget2 : ∀ v, v < pos.length → adj[v]?.getD [] = entriesFor pos edges v := by
    intro v hv
    rw [hget v hv]
    simp [List.getElem?_replicate, hv]
  refine ⟨adj, hfold, hlen, hget2, ?_, ?_, ?_⟩
  · intro e he
    have h1 := (h e he).1
    have h2 := (h e he).2
    rw [hget2 e.1 h1, hget2 e.2 h2]
    exact mem_entriesFor_of_mem pos edges e he
  · rw [csrOf_snd, List.length_flatten, hsum]
    simp
  · rw [csrOf_fst_length, hlen]

/-- C7 (witness): the builder specification applied to a two-vertex,
one-edge mesh. -/
theorem build_adjacency_spec_witness :
    (∀ e ∈ ([((0:ℕ), (1:ℕ))] : List (ℕ × ℕ)),
      e.1 < ([((0:ℝ), (0:ℝ), (0:ℝ)), (1, 0, 0)] : List (ℝ × ℝ × ℝ)).length ∧
      e.2 < ([((0:ℝ), (0:ℝ), (0:ℝ)), (1, 0, 0)] : List (ℝ × ℝ × ℝ)).length) ∧
    (∃ adj, build_adjacency [((0:ℝ), (0:ℝ), (0:ℝ)), (1, 0, 0)] [(0, 1)] =
        some adj ∧
      adj.length = ([((0:ℝ), (0:ℝ), (0:ℝ)), (1, 0, 0)] : List (ℝ × ℝ × ℝ)).length ∧
      (∀ v, v < ([((0:ℝ), (0:ℝ), (0:ℝ)), (1, 0, 0)] : List (ℝ × ℝ × ℝ)).length →
        adj[v]?.getD [] =
          entriesFor [((0:ℝ), (0:ℝ), (0:ℝ)), (1, 0, 0)] [(0, 1)] v) ∧
      (∀ e ∈ ([((0:ℕ), (1:ℕ))] : List (ℕ × ℕ)),
        (e.2, edgeWeight
          (([((0:ℝ), (0:ℝ), (0:ℝ)), (1, 0, 0)] : List (ℝ × ℝ × ℝ)).getD e.1 default)
          (([((0:ℝ), (0:ℝ), (0:ℝ)), (1, 0, 0)] : List (ℝ × ℝ × ℝ)).getD e.2 default)) ∈
          adj[e.1]?.getD [] ∧
        (e.1, edgeWeight
          (([((0:ℝ), (0:ℝ), (0:ℝ)), (1, 0, 0)] : List (ℝ × ℝ × ℝ)).getD e.1 default)
          (([((0:ℝ), (0:ℝ), (0:ℝ)), (1, 0, 0)] : List (ℝ × ℝ × ℝ)).getD e.2 default)) ∈
          adj[e.2]?.getD []) ∧
      ((csrOf adj).2).length = 2 * ([((0:ℕ), (1:ℕ))] : List (ℕ × ℕ)).length ∧
      ((csrOf adj).1).length =
        ([((0:ℝ), (0:ℝ), (0:ℝ)), (1, 0, 0)] : List (ℝ × ℝ × ℝ)).length + 1) :=
  ⟨by intro e he; rw [List.mem_singleton] at he; subst he
      exact ⟨by norm_num, by norm_num⟩,
   build_adjacency_spec [((0:ℝ), (0:ℝ), (0:ℝ)), (1, 0, 0)] [(0, 1)]
    (by intro e he; rw [List.mem_singleton] at he; subst he
        exact ⟨by norm_num, by norm_num⟩)⟩

/-- C10: an edge list referencing any vertex index outside
`[0, vertex_count)` makes the adjacency builder fail — the whole build
returns nothing (the spec's `InvalidTopology` condition, realised in the
Python fallback as the uncaught `IndexError`); no adjacency structure is
silently produced. -/
theorem build_adjacency_invalid (pos : List (ℝ × ℝ × ℝ)) (edges : List (ℕ × ℕ))
    (h : ∃ e ∈ edges, pos.length ≤ e.1 ∨ pos.length ≤ e.2) :
    build_adjacency pos edges = none := by
  unfold build_adjacency
  have main : ∀ (es : List (ℕ × ℕ)) (adj : List (List (ℕ × ℝ))),
      (∃ e ∈ es, pos.length ≤ e.1 ∨ pos.length ≤ e.2) →
      es.foldlM (buildStep pos) adj = none := by
    intro es
    induction es with
    | nil =>
        intro adj hh
        obtain ⟨b, hb, _⟩ := hh
        simp at hb
    | cons e rest ih =>
        intro adj hh
        rw [List.foldlM_cons]
        by_cases hbad : pos.length ≤ e.1 ∨ pos.length ≤ e.2
        · have hstep : buildStep pos adj e = none := by
            unfold buildStep
            rcases hbad with hb1 | hb2
            · rw [List.getElem?_eq_none hb1]
              rfl
            · cases hpa : pos[e.1]? <;>
                simp [hpa, List.getElem?_eq_none hb2]
          rw [hstep]
          rfl
        · push_neg at hbad
          rw [buildStep_some pos adj e hbad.1 hbad.2]
          have hrest : ∃ b ∈ rest, pos.length ≤ b.1 ∨ pos.length ≤ b.2 := by
            obtain ⟨b, hb, hor⟩ := hh
            rcases List.mem_cons.mp hb with rfl | hbes
            · rcases hor with h1 | h1
              · exact absurd h1 (not_le.mpr hbad.1)
              · exact absurd h1 (not_le.mpr hbad.2)
            · exact ⟨b, hbes, hor⟩
          simpa using ih _ hrest
  exact main edges _ h

/-- C10 (witness): the failure theorem applied to a one-vertex mesh whose
single edge references the out-of-range vertex index `5`. -/
theorem build_adjacency_invalid_witness :
    (∃ e ∈ ([((0:ℕ), (5:ℕ))] : List (ℕ × ℕ)),
      ([((0:ℝ), (0:ℝ), (0:ℝ))] : List (ℝ × ℝ × ℝ)).length ≤ e.1 ∨
      ([((0:ℝ), (0:ℝ), (0:ℝ))] : List (ℝ × ℝ × ℝ)).length ≤ e.2) ∧
    build_adjacency [((0:ℝ), (0:ℝ), (0:ℝ))] [(0, 5)] = none :=
  ⟨⟨(0, 5), List.mem_singleton.mpr rfl, Or.inr (by norm_num)⟩,
   build_adjacency_invalid [((0:ℝ), (0:ℝ), (0:ℝ))] [(0, 5)]
    ⟨(0, 5), List.mem_singleton.mpr rfl, Or.inr (by norm_num)⟩⟩

theorem foldl_flatMap_eq {α β σ : Type} (g : σ → β → σ) (f : α → List β) :
    ∀ (l : List α) (s : σ),
      (l.flatMap f).foldl g s = l.foldl (fun s a => (f a).foldl g s) s := by
  intro l
  induction l with
  | nil => intro s; simp
  | cons a as ih => intro s; simp [List.flatMap_cons, List.foldl_append, ih]

theorem fold_visit (f : ℚ) :
    ∀ (cands : List ℕ) (w : List (ℕ × ℚ)) (vis nxt : List ℕ),
      cands.foldl (visitNeighbor f) (w, vis, nxt) =
        (w ++ (newly vis cands).map (fun o => (o, f)),
         vis ++ newly vis cands, nxt ++ newly vis cands) := by
  intro cands
  induction cands with
  | nil => intro w vis nxt; simp [newly]
  | cons o cs ih =>
      intro w vis nxt
      rw [List.foldl_cons]
      by_cases h : o ∈ vis
      · have hv : visitNeighbor f (w, vis, nxt) o = (w, vis, nxt) := by
          simp [visitNeighbor, h]
        rw [hv, ih, newly, if_pos h]
      · have hv : visitNeighbor f (w, vis, nxt) o =
            (w ++ [(o, f)], vis ++ [o], nxt ++ [o]) := by
          simp [visitNeighbor, h]
        rw [hv, ih, newly, if_neg h]
        simp

theorem expandRing_eq (adj : ℕ → List ℕ) (f : ℚ) (w : List (ℕ × ℚ))
    (vis ring : List ℕ) :
    expandRing adj f w vis ring =
      (w ++ (newly vis (ring.flatMap adj)).map (fun o => (o, f)),
       vis ++ newly vis (ring.flatMap adj),
       newly vis (ring.flatMap adj)) := by
  unfold expandRing
  rw [← foldl_flatMap_eq (visitNeighbor f) adj ring (w, vis, [])]
  simpa using fold_visit f (ring.flatMap adj) w vis []

theorem ring_empty_propagate (adj : ℕ → List ℕ) (seeds : List ℕ) (m : ℕ)
    (h : ringAt adj seeds m = []) :
    ∀ k, ringAt adj seeds (m + k) = [] := by
  intro k
  induction k with
  | zero => exact h
  | succ j ih =>
      have h2 : (bfsState adj seeds (m + j)).2 = [] := ih
      show newly (bfsState adj seeds (m + j)).1
          ((bfsState adj seeds (m + j)).2.flatMap adj) = []
      rw [h2]
      rfl

theorem cum_stable (adj : ℕ → List ℕ) (seeds : List ℕ) (steps : ℤ) (m : ℕ)
    (h : ringAt adj seeds m = []) :
    ∀ k, cumWeights adj seeds steps (m + k) = cumWeights adj seeds steps m := by
  intro k
  induction k with
  | zero => rfl
  | succ j ih =>
      have hre : ringAt adj seeds (m + j + 1) = [] := by
        have := ring_empty_propagate adj seeds m h (j + 1)
        rwa [← Nat.add_assoc] at this
      show cumWeights adj seeds steps ((m + j) + 1) = _
      rw [cumWeights, ih, hre]
      simp

theorem falloffAux_eq (adj : ℕ → List ℕ) (seeds : List ℕ) (steps : ℤ) :
    ∀ (fuel m : ℕ),
      falloffAux adj steps fuel (m + 1) (cumWeights adj seeds steps m)
        (visitedAt adj seeds m) (ringAt adj seeds m) =
      cumWeights adj seeds steps (m + fuel) := by
  intro fuel
  induction fuel with
  | zero => intro m; rfl
  | succ fl ih =>
      intro m
      have hring : newly (visitedAt adj seeds m)
          ((ringAt adj seeds m).flatMap adj) = ringAt adj seeds (m + 1) := rfl
      have hvis : visitedAt adj seeds m ++ newly (visitedAt adj seeds m)
          ((ringAt adj seeds m).flatMap adj) = visitedAt adj seeds (m + 1) := rfl
      have hcum2 : cumWeights adj seeds steps m ++
          (ringAt adj seeds (m + 1)).map
            (fun o => (o, falloffFactor steps (m + 1))) =
          cumWeights adj seeds steps (m + 1) := rfl
      rw [falloffAux]
      rw [expandRing_eq adj (falloffFactor steps (m + 1))
        (cumWeights adj seeds steps m) (visitedAt adj seeds m)
        (ringAt adj seeds m)]
      simp only [hring, hvis]
      rw [hcum2]
      by_cases hr : ringAt adj seeds (m + 1) = []
      · rw [if_pos hr, show m + (fl + 1) = (m + 1) + fl by ring]
        exact (cum_stable adj seeds steps (m + 1) hr fl).symm
      · rw [if_neg hr, show m + (fl + 1) = (m + 1) + fl by ring]
        exact ih (m + 1)

theorem get_falloff_eq_cum (adj : ℕ → List ℕ) (seeds : List ℕ) (steps : ℤ)
    (h : 0 < steps) :
    get_falloff_targets adj seeds steps =
      cumWeights adj seeds steps steps.toNat := by
  unfold get_falloff_targets
  rw [if_neg (not_le.mpr h)]
  have := falloffAux_eq adj seeds steps steps.toNat 0
  simpa using this

theorem lookupW_append_some (l1 l2 : List (ℕ × ℚ)) (g : ℕ) (x : ℚ)
    (h : lookupW l1 g = some x) : lookupW (l1 ++ l2) g = some x := by
  induction l1 with
  | nil => simp [lookupW] at h
  | cons p rest ih =>
      rw [lookupW] at h
      by_cases hp : p.1 = g
      · rw [if_pos hp] at h
        rw [List.cons_append, lookupW, if_pos hp]
        exact h
      · rw [if_neg hp] at h
        rw [List.cons_append, lookupW, if_neg hp]
        exact ih h

theorem lookupW_append_none (l1 l2 : List (ℕ × ℚ)) (g : ℕ)
    (h : lookupW l1 g = none) : lookupW (l1 ++ l2) g = lookupW l2 g := by
  induction l1 with
  | nil => rfl
  | cons p rest ih =>
      rw [lookupW] at h
      by_cases hp : p.1 = g
      · rw [if_pos hp] at h
        simp at h
      · rw [if_neg hp] at h
        rw [List.cons_append, lookupW, if_neg hp]
        exact ih h

theorem lookupW_const_map (ring : List ℕ) (v : ℕ) (c : ℚ) (h : v ∈ ring) :
    lookupW (ring.map (fun u => (u, c))) v = some c := by
  induction ring with
  | nil => simp at h
  | cons u rest ih =>
      rw [List.map_cons, lookupW]
      by_cases hu : u = v
      · rw [if_pos hu]
      · rw [if_neg hu]
        rcases List.mem_cons.mp h with h1 | h1
        · exact absurd h1.symm hu
        · exact ih h1

theorem mem_newly_not_visited :
    ∀ (cands vis : List ℕ) (x : ℕ), x ∈ newly vis cands → x ∉ vis := by
  intro cands
  induction cands with
  | nil => intro vis x hx; simp [newly] at hx
  | cons o cs ih =>
      intro vis x hx
      rw [newly] at hx
      by_cases h : o ∈ vis
      · rw [if_pos h] at hx
        exact ih vis x hx
      · rw [if_neg h] at hx
        rcases List.mem_cons.mp hx with h1 | h1
        · exact h1 ▸ h
        · intro hv
          exact ih (vis ++ [o]) x h1 (List.mem_append_left _ hv)

theorem keys_cumWeights (adj : ℕ → List ℕ) (seeds : List ℕ) (steps : ℤ) :
    ∀ m, (cumWeights adj seeds steps m).map Prod.fst = visitedAt adj seeds m := by
  intro m
  induction m with
  | zero =>
      show (List.map Prod.fst (seeds.map (fun v => (v, (1:ℚ))))) = seeds
      rw [List.map_map]
      have : (Prod.fst ∘ fun v : ℕ => (v, (1:ℚ))) = id := rfl
      rw [this, List.map_id]
  | succ k ih =>
      show (List.map Prod.fst (cumWeights adj seeds steps k ++
        (ringAt adj seeds (k + 1)).map
          (fun v => (v, falloffFactor steps (k + 1))))) = _
      rw [List.map_append, ih, List.map_map]
      have : (Prod.fst ∘ fun v : ℕ => (v, falloffFactor steps (k + 1))) = id := rfl
      rw [this, List.map_id]
      rfl

theorem cum_lookup_seed (adj : ℕ → List ℕ) (seeds : List ℕ) (steps : ℤ)
    (v : ℕ) (hv : v ∈ seeds) :
    ∀ m, lookupW (cumWeights adj seeds steps m) v = some 1 := by
  intro m
  induction m with
  | zero => exact lookupW_const_map seeds v 1 hv
  | succ k ih =>
      show lookupW (cumWeights adj seeds steps k ++ _) v = some 1
      exact lookupW_append_some _ _ _ _ ih

theorem cum_lookup_ring (adj : ℕ → List ℕ) (seeds : List ℕ) (steps : ℤ)
    (v : ℕ) (i : ℕ) (hi : 1 ≤ i) (hv : v ∈ ringAt adj seeds i) :
    ∀ m, i ≤ m →
      lookupW (cumWeights adj seeds steps m) v =
        some (falloffFactor steps i) := by
  intro m
  induction m with
  | zero => intro h0; omega
  | succ k ih =>
      intro hik
      show lookupW (cumWeights adj seeds steps k ++
        (ringAt adj seeds (k + 1)).map
          (fun u => (u, falloffFactor steps (k + 1)))) v = _
      by_cases hik2 : i ≤ k
      · exact lookupW_append_some _ _ _ _ (ih hik2)
      · have hieq : i = k + 1 := by omega
        subst hieq
        have hnv : v ∉ visitedAt adj seeds k :=
          mem_newly_not_visited _ _ v hv
        have hnone : lookupW (cumWeights adj seeds steps k) v = none := by
          refine lookupW_eq_none_of_not_mem _ _ ?_
          rw [keys_cumWeights]
          exact hnv
        rw [lookupW_append_none _ _ _ hnone]
        exact lookupW_const_map _ v _ hv

theorem cum_lookup_none (adj : ℕ → List ℕ) (seeds : List ℕ) (steps : ℤ)
    (v : ℕ) (m : ℕ) (hv : v ∉ visitedAt adj seeds m) :
    lookupW (cumWeights adj seeds steps m) v = none := by
  refine lookupW_eq_none_of_not_mem _ _ ?_
  rw [keys_cumWeights]
  exact hv

/-- C6: the topological falloff selector gives every seed vertex factor
`1.0`; every vertex first discovered in BFS ring `i` (`1 ≤ i ≤ steps`) gets
factor `(steps - i + 1)/(steps + 1)` — an equality, so an earlier (closer)
ring's factor is kept and never overwritten; no vertex beyond ring `steps`
(or beyond the last nonempty ring) receives a factor; `steps ≤ 0` returns
exactly the seeds at factor `1.0`; and the ring factor is non-increasing in
the ring index, so factors are non-increasing in ring distance. -/
theorem falloff_characterization (adj : ℕ → List ℕ) (seeds : List ℕ)
    (steps : ℤ) :
    (steps ≤ 0 →
      get_falloff_targets adj seeds steps = seeds.map (fun v => (v, (1:ℚ)))) ∧
    (∀ v ∈ seeds, lookupW (get_falloff_targets adj seeds steps) v = some 1) ∧
    (0 < steps → ∀ i : ℕ, 1 ≤ i → i ≤ steps.toNat →
      ∀ v ∈ ringAt adj seeds i,
        lookupW (get_falloff_targets adj seeds steps) v =
          some (falloffFactor steps i)) ∧
    (0 < steps → ∀ v : ℕ, v ∉ visitedAt adj seeds steps.toNat →
      lookupW (get_falloff_targets adj seeds steps) v = none) ∧
    (0 < steps → ∀ i j : ℕ, i ≤ j →
      falloffFactor steps j ≤ falloffFactor steps i) := by
  refine ⟨?_, ?_, ?_, ?_, ?_⟩
  · intro h
    unfold get_falloff_targets
    rw [if_pos h]
  · intro v hv
    by_cases h : steps ≤ 0
    · unfold get_falloff_targets
      rw [if_pos h]
      exact lookupW_const_map seeds v 1 hv
    · rw [get_falloff_eq_cum adj seeds steps (not_le.mp h)]
      exact cum_lookup_seed adj seeds steps v hv _
  · intro h i hi1 hi2 v hv
    rw [get_falloff_eq_cum adj seeds steps h]
    exact cum_lookup_ring adj seeds steps v i hi1 hv _ hi2
  · intro h v hv
    rw [get_falloff_eq_cum adj seeds steps h]
    exact cum_lookup_none adj seeds steps v _ hv
  · intro h i j hij
    have hs : (1:ℚ) ≤ (steps:ℚ) := by exact_mod_cast h
    have hd : (0:ℚ) < (steps:ℚ) + 1 := by linarith
    have hij2 : (i:ℚ) ≤ (j:ℚ) := by exact_mod_cast hij
    have hnum : (steps:ℚ) - j + 1 ≤ (steps:ℚ) - i + 1 := by linarith
    unfold falloffFactor
    exact div_le_div_of_nonneg_right hnum (le_of_lt hd)

/-- C6 (witness): the characterization applied to the path graph
`0 - 1 - 2 - 3` with seed `{0}` and `steps = 2`: vertex `2` sits in ring 2
and receives factor `(2 - 2 + 1)/(2 + 1) = 1/3`. -/
theorem falloff_characterization_witness :
    ((0:ℤ) < 2 ∧ (1:ℕ) ≤ 2 ∧ (2:ℕ) ≤ (2:ℤ).toNat ∧
      2 ∈ ringAt
        (fun n => if n = 0 then [1] else if n = 1 then [0, 2]
          else if n = 2 then [1, 3] else if n = 3 then [2] else [])
        [0] 2) ∧
    lookupW (get_falloff_targets
      (fun n => if n = 0 then [1] else if n = 1 then [0, 2]
        else if n = 2 then [1, 3] else if n = 3 then [2] else [])
      [0] 2) 2 = some (falloffFactor 2 2) :=
  ⟨⟨by decide, by decide, by decide, by decide⟩,
   (falloff_characterization
      (fun n => if n = 0 then [1] else if n = 1 then [0, 2]
        else if n = 2 then [1, 3] else if n = 3 then [2] else [])
      [0] 2).2.2.1 (by decide) 2 (by decide) (by decide) 2 (by decide)⟩
